import Mathlib

/-!
Verification development for the library-manager catalog engine.

The definitions below are a shallow embedding of the two core modules:

* `core/duplicate_finder.py` — exact (sha256) and fuzzy (name similarity)
  duplicate-candidate generation over catalog records pulled from the store;
* `core/catalog_files.py` — the recursive tree scan
  (`scan_and_update_catalog`), the presence-set reconciliation against the
  prior catalog, and `save_catalog` persistence.

Python floats are embedded as `ℚ`, fallible values as `Option`, pandas
missing cells (`NaN`) as `none`.  The external rapidfuzz scoring functions
(`fuzz.token_sort_ratio`, `distance.Levenshtein.distance`) are parameters of
the embedding, as are the extraction/conversion/token-count collaborators of
the scanner.
-/

namespace LibMan

/-! ## Duplicate finder (`src/core/duplicate_finder.py`) -/

/-- One record fetched by `get_file_records` from the `catalog` table.
`sha256` is `none` for SQL NULL. -/
structure DRec where
  top_level_folder : String
  filename : String
  file_size_MB : ℚ
  sha256 : Option String
deriving DecidableEq, Repr

/-- The truthiness test `sha and sha.strip()` guarding the exact pass: the
hash is present and contains at least one non-whitespace character. -/
def shaOk : Option String → Bool
  | none => false
  | some s => s.data.any (fun c => !c.isWhitespace)

/-- Keys of a list in order of first appearance (the iteration order of a
Python dict built by repeated `setdefault`). -/
def firstKeys {α κ : Type} [BEq κ] (key : α → κ) : List α → List κ
  | [] => []
  | x :: xs => key x :: (firstKeys key xs).filter (fun k => !(k == key x))

/-- Grouping by a key function, preserving dict insertion order: the groups
appear in order of first appearance of their key, and each group keeps the
original order of its members. -/
def groupByKey {α κ : Type} [BEq κ] (key : α → κ) (xs : List α) :
    List (κ × List α) :=
  (firstKeys key xs).map (fun k => (k, xs.filter (fun x => key x == k)))

/-- All unordered pairs of a list in `itertools.combinations(l, 2)` order. -/
def pairsOf {α : Type} : List α → List (α × α)
  | [] => []
  | x :: xs => xs.map (fun y => (x, y)) ++ pairsOf xs

/-- An output row of `latest-duplicates.csv`. -/
structure OutRow where
  top_level_folder : String
  filename1 : String
  filename2 : String
  file_size_MB : ℚ
  confidence : String
deriving DecidableEq, Repr

/-- The exact-pass row built from a pair of same-hash records: folder and
size are taken from the first record of the pair. -/
def mkExactRow (r1 r2 : DRec) : OutRow :=
  ⟨r1.top_level_folder, r1.filename, r2.filename, r1.file_size_MB, "exact"⟩

/-- The sha256 exact-duplicate pass of `find_and_save_duplicates`
(lines 164-185): group records with a non-blank hash by hash, emit every
unordered pair of each group of size at least 2. -/
def exactPassRows (records : List DRec) : List OutRow :=
  (groupByKey (fun r => r.sha256) (records.filter (fun r => shaOk r.sha256))).flatMap
    (fun g => if g.2.length < 2 then [] else (pairsOf g.2).map (fun p => mkExactRow p.1 p.2))

/-- A candidate pair produced by `find_duplicates`. -/
structure FPair where
  top_level_folder : String
  filename1 : String
  filename2 : String
  file_size_MB : ℚ
deriving DecidableEq, Repr

/-- `find_duplicates`: group by top-level folder, then by exact file size,
and emit all unordered pairs of each size group. -/
def find_duplicates (records : List DRec) : List FPair :=
  (groupByKey (fun r => r.top_level_folder) records).flatMap (fun fg =>
    (groupByKey (fun r => r.file_size_MB) fg.2).flatMap (fun sg =>
      if sg.2.length < 2 then [] else
        (pairsOf sg.2).map (fun p => ⟨fg.1, p.1.filename, p.2.filename, sg.1⟩)))

/-- A scored row of `compute_similarity`. -/
structure SimRow where
  top_level_folder : String
  filename1 : String
  filename2 : String
  file_size_MB : ℚ
  token_sort_ratio : ℚ
  normalized_levenshtein : ℚ
  confidence : String
deriving DecidableEq, Repr

/-- `1 - lev_dist / max_len` with the `or 1` guard on `max_len`, written as
the single fraction `(max_len - lev_dist) / max_len` (`mkRat a b` is the
rational `a / b`; the two forms agree since the denominator is nonzero). -/
def normalizedLev (levd : String → String → ℕ) (fn1 fn2 : String) : ℚ :=
  let maxLen : ℕ := max fn1.length fn2.length
  let m : ℕ := if maxLen = 0 then 1 else maxLen
  mkRat ((m : ℤ) - (levd fn1 fn2 : ℤ)) m

/-- The similarity threshold `0.85`. -/
def q85 : ℚ := mkRat 85 100

/-- The similarity threshold `0.70`. -/
def q70 : ℚ := mkRat 70 100

/-- The confidence assignment of `compute_similarity`. -/
def confidenceOf (tsrv nlv : ℚ) : String :=
  if 90 ≤ tsrv ∧ q85 ≤ nlv then "high"
  else if 80 ≤ tsrv ∧ q70 ≤ nlv then "possible"
  else "unlikely"

/-- `compute_similarity`, parameterized by the two rapidfuzz scoring
functions. -/
def compute_similarity (tsr : String → String → ℚ) (levd : String → String → ℕ)
    (pairs : List FPair) : List SimRow :=
  pairs.map (fun pr =>
    let tsrv := tsr pr.filename1 pr.filename2
    let nlv := normalizedLev levd pr.filename1 pr.filename2
    ⟨pr.top_level_folder, pr.filename1, pr.filename2, pr.file_size_MB,
      tsrv, nlv, confidenceOf tsrv nlv⟩)

/-- The fuzzy rows kept by `find_and_save_duplicates` (line 190): scored
pairs passing both thresholds, projected to the output columns. -/
def fuzzyKeptRows (tsr : String → String → ℚ) (levd : String → String → ℕ)
    (records : List DRec) : List OutRow :=
  ((compute_similarity tsr levd (find_duplicates records)).filter
      (fun r => decide ((80 : ℚ) ≤ r.token_sort_ratio) &&
        decide (q70 ≤ r.normalized_levenshtein))).map
    (fun r => ⟨r.top_level_folder, r.filename1, r.filename2, r.file_size_MB, r.confidence⟩)

/-- The identity tuple used at line 195 to deduplicate exact and fuzzy rows. -/
def rowTuple (r : OutRow) : String × String × String × ℚ :=
  (r.top_level_folder, r.filename1, r.filename2, r.file_size_MB)

/-- The full output row list of `find_and_save_duplicates`: exact rows, then
the fuzzy rows whose identity tuple is not already reported as exact. -/
def find_and_save_rows (tsr : String → String → ℚ) (levd : String → String → ℕ)
    (records : List DRec) : List OutRow :=
  let exact := exactPassRows records
  let exactSet := exact.map rowTuple
  let fuzzyF := (fuzzyKeptRows tsr levd records).filter
    (fun r => !(exactSet.contains (rowTuple r)))
  exact ++ fuzzyF

/-- The indexed mirror of the exact pass: the same grouping pipeline run on
index-annotated records, yielding the pairs of positions the pass pairs up. -/
def shaPairsIdx (records : List DRec) : List ((ℕ × DRec) × (ℕ × DRec)) :=
  (groupByKey (fun p => p.2.sha256) (records.enum.filter (fun p => shaOk p.2.sha256))).flatMap
    (fun g => if g.2.length < 2 then [] else pairsOf g.2)

/-- The indexed mirror of `find_duplicates`: folder/size grouping on
index-annotated records. -/
def sizePairsIdx (records : List DRec) : List ((ℕ × DRec) × (ℕ × DRec)) :=
  (groupByKey (fun p => p.2.top_level_folder) records.enum).flatMap (fun fg =>
    (groupByKey (fun p => p.2.file_size_MB) fg.2).flatMap (fun sg =>
      if sg.2.length < 2 then [] else pairsOf sg.2))

/-! ## Catalog scanner (`src/core/catalog_files.py`) -/

/-- A directory tree: the listing of a directory is a list of file names and
a list of named subdirectories, in `os.walk` listing order. -/
inductive FSTree where
  | node : List String → List (String × FSTree) → FSTree

instance : Inhabited FSTree := ⟨FSTree.node [] []⟩

/-- Existence of a file at a root-relative path (`Path.exists` on a file). -/
def hasFile : List String → FSTree → Bool
  | [], _ => false
  | [f], .node fs _ => fs.contains f
  | d :: e :: p, .node _ ds =>
    match ds.find? (fun x => x.1 == d) with
    | some x => hasFile (e :: p) x.2
    | none => false

/-- Replace the subtree of the first directory entry named `d`, or append a
new entry named `d` when none exists. -/
def replaceOrAppend (d : String) (newT : FSTree) :
    List (String × FSTree) → List (String × FSTree)
  | [] => [(d, newT)]
  | (n, t) :: rest =>
    if n == d then (n, newT) :: rest else (n, t) :: replaceOrAppend d newT rest

/-- The subtree the walk descends into at `d`, an empty directory when the
entry is absent. -/
def dirAt (d : String) (ds : List (String × FSTree)) : FSTree :=
  match ds.find? (fun x => x.1 == d) with
  | some x => x.2
  | none => .node [] []

/-- Creation of a file at a root-relative path, making parent directories as
needed (the effect of writing a new file under `mkdir(parents=True)`).
Creating a file that already exists leaves the tree unchanged. -/
def insertFile : List String → FSTree → FSTree
  | [], t => t
  | [f], .node fs ds => if fs.contains f then .node fs ds else .node (fs ++ [f]) ds
  | d :: e :: p, .node fs ds =>
    .node fs (replaceOrAppend d (insertFile (e :: p) (dirAt d ds)) ds)

/-- One row of the catalog DataFrame.  `textracted` is `none` when the record
dict was built without a `textracted` key (a pandas `NaN` cell, blank in the
CSV), `token_count` is `none` for the empty-string cell. -/
structure Row where
  relative_path : String
  filename : String
  extension : String
  textracted : Option Bool
  token_count : Option Nat
deriving DecidableEq, Repr

/-- The module-level always-excluded OS artifact names. -/
def EXCLUDED_FILES : List String := [".DS_Store", "Thumbs.db", "desktop.ini"]

/-- The configuration handed to `scan_and_update_catalog`.  `rootParts` are
the path components of the absolute scan root (its last entry is the
basename of the root). -/
structure ScanCfg where
  rootParts : List String
  extract_folder : String
  excluded_files : List String
  tokenize : Bool
  convert : Bool

/-- The external collaborators of the scan, modelled as deterministic
functions of the root-relative path they are applied to: `tok` is
`count_tokens` (`none` when it raises), `extractOk` is success of
`extract_and_save`, `mdOk` is success of `convert_md_to_txt`. -/
structure Collab where
  tok : List String → Option Nat
  extractOk : List String → Bool
  mdOk : List String → Bool

/-- `os.path.splitext` position: the index of the last dot of the name,
provided some earlier character of the name is not a dot (leading dots of
the component belong to the root). -/
def splitextPos (cs : List Char) : Option ℕ :=
  ((List.range cs.length).filter (fun i =>
    cs.getD i ' ' == '.' && (List.range i).any (fun j => cs.getD j ' ' != '.'))).getLast?

/-- `os.path.splitext` on a bare file name. -/
def splitext (f : String) : String × String :=
  match splitextPos f.data with
  | some i => (⟨f.data.take i⟩, ⟨f.data.drop i⟩)
  | none => (f, "")

/-- `core/file_utils.py` `get_file_extension`: the extension without its
leading dot (`ext[1:] if ext.startswith(".") else ext`). -/
def get_file_extension (filename : String) : String :=
  let ext := (splitext filename).2
  match ext.data with
  | '.' :: rest => ⟨rest⟩
  | _ => ext

/-- Python `str.lower` (ASCII case folding suffices for the extension
comparisons of the source). -/
def strLower (s : String) : String := ⟨s.data.map Char.toLower⟩

/-- Python `str.lstrip(".")`. -/
def lstripDots (s : String) : String := ⟨s.data.dropWhile (fun c => c == '.')⟩

/-- `os.path.relpath(dirpath, root)` for a directory given by its walk
parts. -/
def relDir (walkParts : List String) : String :=
  if walkParts.isEmpty then "." else String.intercalate "/" walkParts

/-- `is_excluded`: the file name itself is listed, or any path component
(including the file name) is listed with a trailing separator. -/
def is_excluded (relParts : List String) (excluded : List String) : Bool :=
  (match relParts.getLast? with
   | some nm => excluded.contains nm
   | none => false)
  || relParts.any (fun part => excluded.contains (part ++ "/"))

/-- A filesystem mutation performed by the scan. -/
inductive Eff where
  | mkdirEff : List String → Eff
  | extractEff : List String → List String → Eff
  | mdConvertEff : List String → Eff
deriving DecidableEq, Repr

/-- The running state of a scan: records accumulated so far, the current
filesystem (the initial tree plus files created by conversions), and the
trace of mutations performed. -/
structure ScanSt where
  records : List Row
  cur : FSTree
  effs : List Eff

/-- `os.path.basename` of a directory given by its absolute path parts. -/
def basenameOf (parts : List String) : String := parts.getLastD ""

/-- The `already_in_catalog` lookup: the first catalog row matching the
natural key (`.iloc[0]` of the boolean mask). -/
def catalogLookup (catalog : List Row) (rel nm ex : String) : Option Row :=
  catalog.find? (fun row => row.relative_path == rel && row.filename == nm
    && row.extension == ex)

/-- The extraction directory consulted for a PDF under the given walk
directory: the extraction folder of its first-level subdirectory, or of the
root when the PDF sits directly under root (`get_first_level_subdir`). -/
def pdfTxtDir (cfg : ScanCfg) (walkParts : List String) : List String :=
  (if walkParts.isEmpty then [] else [walkParts.headD ""]) ++ [cfg.extract_folder]

/-- The correlated text artifact path for a PDF named `f` under `walkParts`. -/
def pdfTxtPath (cfg : ScanCfg) (walkParts : List String) (f : String) : List String :=
  pdfTxtDir cfg walkParts ++ [(splitext f).1 ++ ".txt"]

/-- The `skip_due_to_catalog` test of the PDF branch (source lines 149-160):
the prior catalog marks this key extracted and the text artifact exists. -/
def pdfSkipCat (cfg : ScanCfg) (catalog : List Row) (cur : FSTree)
    (walkParts : List String) (f : String) : Bool :=
  match catalogLookup catalog (relDir walkParts) (splitext f).1 (lstripDots (splitext f).2) with
  | some row => (row.textracted == some true) && hasFile (pdfTxtPath cfg walkParts f) cur
  | none => false

/-- The PDF branch of the walk loop (source lines 144-221).  Note that in
the txt-already-exists branch (lines 178-189) the code sets a local variable
but never assigns `record["textracted"]`, so the produced record carries no
`textracted` value (`none` here, a blank cell in the persisted CSV). -/
def processPdf (cfg : ScanCfg) (cl : Collab) (catalog : List Row)
    (walkParts : List String) (f : String) (st : ScanSt) : ScanSt :=
  if pdfSkipCat cfg catalog st.cur walkParts f then
    { st with records := st.records ++ [⟨relDir walkParts, (splitext f).1,
        get_file_extension f, some true,
        if cfg.tokenize then cl.tok (pdfTxtPath cfg walkParts f) else none⟩] }
  else if hasFile (pdfTxtPath cfg walkParts f) st.cur then
    { st with records := st.records ++ [⟨relDir walkParts, (splitext f).1,
        get_file_extension f, none,
        if cfg.tokenize then cl.tok (pdfTxtPath cfg walkParts f) else none⟩] }
  else if cfg.convert then
    if cl.extractOk (walkParts ++ [f]) then
      { records := st.records ++ [⟨relDir walkParts, (splitext f).1,
          get_file_extension f, some true,
          if cfg.tokenize then cl.tok (pdfTxtPath cfg walkParts f) else none⟩],
        cur := insertFile (pdfTxtPath cfg walkParts f) st.cur,
        effs := st.effs ++ [Eff.mkdirEff (pdfTxtDir cfg walkParts),
          Eff.extractEff (walkParts ++ [f]) (pdfTxtPath cfg walkParts f)] }
    else
      { st with
          records := st.records ++ [⟨relDir walkParts, (splitext f).1,
            get_file_extension f, some false, none⟩],
          effs := st.effs ++ [Eff.mkdirEff (pdfTxtDir cfg walkParts)] }
  else
    { st with records := st.records ++ [⟨relDir walkParts, (splitext f).1,
        get_file_extension f, some false, none⟩] }

/-- The text artifact written next to a Markdown file by `convert_md_to_txt`. -/
def mdTxtPath (walkParts : List String) (f : String) : List String :=
  walkParts ++ [(splitext f).1 ++ ".txt"]

/-- The Markdown branch of the walk loop (source lines 222-249): with
conversion on, a successful conversion writes the sibling text file and
marks the record extracted; with conversion off the record is simply marked
not extracted (the branch never consults an existing artifact). -/
def processMd (cfg : ScanCfg) (cl : Collab)
    (walkParts : List String) (f : String) (st : ScanSt) : ScanSt :=
  if cfg.convert then
    if cl.mdOk (walkParts ++ [f]) then
      { records := st.records ++ [⟨relDir walkParts, (splitext f).1,
          get_file_extension f, some true,
          if cfg.tokenize && hasFile (mdTxtPath walkParts f)
              (insertFile (mdTxtPath walkParts f) st.cur) then
            cl.tok (mdTxtPath walkParts f)
          else none⟩],
        cur := insertFile (mdTxtPath walkParts f) st.cur,
        effs := st.effs ++ [Eff.mdConvertEff (walkParts ++ [f])] }
    else
      { st with records := st.records ++ [⟨relDir walkParts, (splitext f).1,
          get_file_extension f, some false, none⟩] }
  else
    { st with records := st.records ++ [⟨relDir walkParts, (splitext f).1,
        get_file_extension f, some false, none⟩] }

/-- The per-file body of the `scan_and_update_catalog` walk loop
(lines 124-253), translated guard by guard. -/
def processFile (cfg : ScanCfg) (cl : Collab) (catalog : List Row)
    (walkParts : List String) (f : String) (st : ScanSt) : ScanSt :=
  if EXCLUDED_FILES.contains f then st
  else if !cfg.excluded_files.isEmpty && is_excluded (walkParts ++ [f]) cfg.excluded_files then st
  else if strLower (get_file_extension f) == "txt"
      && (cfg.rootParts ++ walkParts).contains cfg.extract_folder then st
  else if strLower (get_file_extension f) == "pdf" then
    processPdf cfg cl catalog walkParts f st
  else if strLower (get_file_extension f) == "md" then
    processMd cfg cl walkParts f st
  else
    { st with records := st.records ++ [⟨relDir walkParts, (splitext f).1,
        get_file_extension f, some false, none⟩] }

mutual

/-- The visit order of the `os.walk` loop of `scan_and_update_catalog`
(lines 118-123): the `(directory walk parts, file name)` pairs of every file
the loop body runs on, in traversal order.  A directory whose basename
equals the extraction folder is skipped (`continue`): its files are not
listed and, because the `continue` fires before the prune, its subdirectory
list is walked without removing the extraction folder.  The order is a
function of the tree being walked: files created during a run are written
either under pruned extraction directories or into directories whose
listing `os.walk` has already taken, so they never enter the visit order of
the run that creates them. -/
def walkEntries (cfg : ScanCfg) (wp : List String) : FSTree → List (List String × String)
  | .node files dirs =>
    if basenameOf (cfg.rootParts ++ wp) == cfg.extract_folder then
      walkDirs cfg wp false dirs
    else
      files.map (fun f => (wp, f)) ++ walkDirs cfg wp true dirs
termination_by structural t => t

/-- Walk the subdirectory list; when `prune` is set the first subdirectory
named as the extraction folder is dropped (`dirs.remove(extract_folder)`). -/
def walkDirs (cfg : ScanCfg) (wp : List String) : Bool → List (String × FSTree) → List (List String × String)
  | _, [] => []
  | prune, (d, t) :: rest =>
    if prune && (d == cfg.extract_folder) then walkDirs cfg wp false rest
    else walkEntries cfg (wp ++ [d]) t ++ walkDirs cfg wp prune rest
termination_by structural _ ds => ds

end

/-- The full scan: fold the per-file loop body over the visit order,
starting from the tree being scanned; yields the records, the final
filesystem and the mutation trace of one `scan_and_update_catalog` walk. -/
def scanFull (cfg : ScanCfg) (cl : Collab) (catalog : List Row) (tree : FSTree) : ScanSt :=
  (walkEntries cfg [] tree).foldl
    (fun st e => processFile cfg cl catalog e.1 e.2 st) ⟨[], tree, []⟩

/-- The natural key of a catalog row. -/
def rowKey (r : Row) : String × String × String :=
  (r.relative_path, r.filename, r.extension)

/-- `pandas.drop_duplicates(subset=key, keep="last")`: keep a row iff no
later row shares its key, preserving order. -/
def keepLast : List Row → List Row
  | [] => []
  | r :: rs => if rs.any (fun s => rowKey s == rowKey r) then keepLast rs
    else r :: keepLast rs

/-- The merge step of `scan_and_update_catalog` (lines 254-271): concatenate
prior catalog and fresh records preferring the fresh ones, then restrict to
the keys present in the fresh records. -/
def reconcile (catalog : List Row) (records : List Row) : List Row :=
  let updated := if records.isEmpty then catalog else keepLast (catalog ++ records)
  let present := records.map rowKey
  updated.filter (fun row => present.contains (rowKey row))

/-- `scan_and_update_catalog`: walk, then merge with the prior catalog. -/
def scan_and_update_catalog (cfg : ScanCfg) (cl : Collab) (catalog : List Row)
    (tree : FSTree) : List Row :=
  reconcile catalog (scanFull cfg cl catalog tree).records

/-- `save_catalog`: write `latest-catalog.csv` inside the catalog folder
under the root (creating the folder as needed). -/
def saveCatalogTree (catalog_folder : String) (t : FSTree) : FSTree :=
  insertFile [catalog_folder, "latest-catalog.csv"] t

/-- CSV rendering of a `textracted` cell: `NaN` prints blank. -/
def cellOfTextracted : Option Bool → String
  | none => ""
  | some true => "True"
  | some false => "False"

/-- CSV rendering of a `token_count` cell. -/
def cellOfTokens : Option Nat → String
  | none => ""
  | some n => toString n

/-- CSV rendering of one catalog row. -/
def serializeRow (r : Row) : String :=
  r.relative_path ++ "," ++ r.filename ++ "," ++ r.extension ++ ","
    ++ cellOfTextracted r.textracted ++ "," ++ cellOfTokens r.token_count

/-- The bytes `to_csv` persists for a catalog. -/
def serializeCatalog (rows : List Row) : String :=
  String.intercalate "\n"
    ("relative_path,filename,extension,textracted,token_count" :: rows.map serializeRow)

/-- One reconciliation run as the claims use it: `scan_and_update_catalog`
followed by `save_catalog`, returning the persisted rows and the filesystem
after the run (scan mutations plus the written catalog file). -/
def runReconcileAndSave (cfg : ScanCfg) (cl : Collab) (catalog_folder : String)
    (catalog : List Row) (tree : FSTree) : List Row × FSTree :=
  let st := scanFull cfg cl catalog tree
  (reconcile catalog st.records, saveCatalogTree catalog_folder st.cur)

/-! ## Reconciliation lemmas -/

lemma keepLast_subset {l : List Row} {a : Row} (ha : a ∈ keepLast l) : a ∈ l := by
  induction l with
  | nil => simp [keepLast] at ha
  | cons r rs ih =>
    by_cases h : rs.any (fun s => rowKey s == rowKey r)
    · rw [keepLast, if_pos h] at ha
      exact List.mem_cons_of_mem _ (ih ha)
    · rw [keepLast, if_neg h] at ha
      rcases List.mem_cons.mp ha with h1 | h2
      · exact h1 ▸ List.mem_cons_self _ _
      · exact List.mem_cons_of_mem _ (ih h2)

lemma keys_keepLast {l : List Row} {k : String × String × String}
    (hk : k ∈ l.map rowKey) : k ∈ (keepLast l).map rowKey := by
  induction l with
  | nil => simp at hk
  | cons r rs ih =>
    rcases List.mem_map.mp hk with ⟨a, ha, hak⟩
    by_cases h : rs.any (fun s => rowKey s == rowKey r)
    · rw [keepLast, if_pos h]
      rcases List.mem_cons.mp ha with h1 | h2
      · rcases List.any_eq_true.mp h with ⟨s, hs, hbeq⟩
        have hsr : rowKey s = rowKey r := by simpa using hbeq
        subst h1
        exact ih (List.mem_map.mpr ⟨s, hs, by rw [hsr, hak]⟩)
      · exact ih (List.mem_map.mpr ⟨a, h2, hak⟩)
    · rw [keepLast, if_neg h]
      rcases List.mem_cons.mp ha with h1 | h2
      · subst h1
        rw [List.map_cons, hak]
        exact List.mem_cons_self _ _
      · exact List.mem_cons_of_mem _ (ih (List.mem_map.mpr ⟨a, h2, hak⟩))

lemma keepLast_keyNodup (l : List Row) :
    (keepLast l).Pairwise (fun a b => rowKey a ≠ rowKey b) := by
  induction l with
  | nil => simp [keepLast]
  | cons r rs ih =>
    by_cases h : rs.any (fun s => rowKey s == rowKey r)
    · rw [keepLast, if_pos h]; exact ih
    · rw [keepLast, if_neg h]
      refine List.Pairwise.cons ?_ ih
      intro b hb hkey
      have hbrs : b ∈ rs := keepLast_subset hb
      have : rs.any (fun s => rowKey s == rowKey r) = true :=
        List.any_eq_true.mpr ⟨b, hbrs, by simpa using hkey.symm⟩
      exact h this

lemma filter_keepLast_append (c r : List Row) :
    (keepLast (c ++ r)).filter
      (fun row => (r.map rowKey).contains (rowKey row)) = keepLast r := by
  induction c with
  | nil =>
    simp only [List.nil_append]
    refine List.filter_eq_self.mpr ?_
    intro a ha
    have : rowKey a ∈ r.map rowKey :=
      List.mem_map.mpr ⟨a, keepLast_subset ha, rfl⟩
    simpa using this
  | cons x c ih =>
    by_cases h : (c ++ r).any (fun s => rowKey s == rowKey x)
    · rw [List.cons_append, keepLast, if_pos h]; exact ih
    · rw [List.cons_append, keepLast, if_neg h]
      have hx : ((r.map rowKey).contains (rowKey x)) = false := by
        by_contra hcon
        have : rowKey x ∈ r.map rowKey := by
          have := Bool.eq_false_iff.not.mp (fun hf => hcon hf)
          simpa using Bool.of_not_eq_false (fun hf => hcon hf)
        rcases List.mem_map.mp this with ⟨s, hs, hsk⟩
        exact h (List.any_eq_true.mpr
          ⟨s, List.mem_append_right _ hs, by simpa using hsk⟩)
      rw [List.filter_cons_of_neg]
      · exact ih
      · simpa using hx

lemma reconcile_eq_keepLast (c r : List Row) : reconcile c r = keepLast r := by
  by_cases hr : r.isEmpty
  · have : r = [] := List.isEmpty_iff.mp hr
    subst this
    simp [reconcile, keepLast]
  · unfold reconcile
    rw [if_neg (by simpa using hr)]
    exact filter_keepLast_append c r

/-- Claim C1 (presence-set reconciliation): for every prior catalog, every
configuration and every filesystem, the set of natural keys of the catalog
returned by `scan_and_update_catalog` is exactly the set of keys of the
records produced by the walk of that run: fresh keys are all present, keys
not observed by the walk (deleted or excluded files) have no row. -/
theorem presence_set_reconciliation (cfg : ScanCfg) (cl : Collab)
    (catalog : List Row) (tree : FSTree) :
    ∀ k : String × String × String,
      k ∈ (scan_and_update_catalog cfg cl catalog tree).map rowKey ↔
        k ∈ (scanFull cfg cl catalog tree).records.map rowKey := by
  intro k
  unfold scan_and_update_catalog
  rw [reconcile_eq_keepLast]
  constructor
  · intro hk
    rcases List.mem_map.mp hk with ⟨a, ha, hak⟩
    exact List.mem_map.mpr ⟨a, keepLast_subset ha, hak⟩
  · intro hk
    exact keys_keepLast hk

/-- Claim C7 (key uniqueness): whatever the prior catalog — including one
already containing duplicate keys — no two rows of the catalog returned by
`scan_and_update_catalog` share the same natural key. -/
theorem key_uniqueness (cfg : ScanCfg) (cl : Collab)
    (catalog : List Row) (tree : FSTree) :
    (scan_and_update_catalog cfg cl catalog tree).Pairwise
      (fun a b => rowKey a ≠ rowKey b) := by
  unfold scan_and_update_catalog
  rw [reconcile_eq_keepLast]
  exact keepLast_keyNodup _

/-! ## Scanner purity -/

lemma processPdf_pure (cfg : ScanCfg) (cl : Collab) (cat : List Row)
    (wp : List String) (f : String) (st : ScanSt) (hconv : cfg.convert = false) :
    (processPdf cfg cl cat wp f st).cur = st.cur ∧
      (processPdf cfg cl cat wp f st).effs = st.effs := by
  unfold processPdf
  simp only [hconv, Bool.false_eq_true, if_false]
  repeat' split
  all_goals exact ⟨rfl, rfl⟩

lemma processMd_pure (cfg : ScanCfg) (cl : Collab)
    (wp : List String) (f : String) (st : ScanSt) (hconv : cfg.convert = false) :
    (processMd cfg cl wp f st).cur = st.cur ∧
      (processMd cfg cl wp f st).effs = st.effs := by
  unfold processMd
  simp only [hconv, Bool.false_eq_true, if_false]
  trivial

lemma processFile_pure (cfg : ScanCfg) (cl : Collab) (cat : List Row)
    (wp : List String) (f : String) (st : ScanSt) (hconv : cfg.convert = false) :
    (processFile cfg cl cat wp f st).cur = st.cur ∧
      (processFile cfg cl cat wp f st).effs = st.effs := by
  unfold processFile
  repeat' split
  · exact ⟨rfl, rfl⟩
  · exact ⟨rfl, rfl⟩
  · exact ⟨rfl, rfl⟩
  · exact processPdf_pure cfg cl cat wp f st hconv
  · exact processMd_pure cfg cl wp f st hconv
  · exact ⟨rfl, rfl⟩

lemma foldl_processFile_pure (cfg : ScanCfg) (cl : Collab) (cat : List Row)
    (entries : List (List String × String)) (st : ScanSt) (hconv : cfg.convert = false) :
    (entries.foldl (fun s e => processFile cfg cl cat e.1 e.2 s) st).cur = st.cur ∧
      (entries.foldl (fun s e => processFile cfg cl cat e.1 e.2 s) st).effs = st.effs := by
  induction entries generalizing st with
  | nil => exact ⟨rfl, rfl⟩
  | cons e es ih =>
    rw [List.foldl_cons]
    rcases ih (processFile cfg cl cat e.1 e.2 st) with ⟨h1, h2⟩
    rcases processFile_pure cfg cl cat e.1 e.2 st hconv with ⟨h3, h4⟩
    exact ⟨h1.trans h3, h2.trans h4⟩

/-- Claim C9 (scanner purity): with conversion off, the walk of
`scan_and_update_catalog` leaves the filesystem exactly as it found it and
performs no mutating effect; beyond logging, its outcome is only the
returned record list. -/
theorem scanner_purity (cfg : ScanCfg) (cl : Collab) (catalog : List Row)
    (tree : FSTree) (hconv : cfg.convert = false) :
    (scanFull cfg cl catalog tree).cur = tree ∧
      (scanFull cfg cl catalog tree).effs = [] := by
  unfold scanFull
  exact foldl_processFile_pure cfg cl catalog (walkEntries cfg [] tree) ⟨[], tree, []⟩ hconv

/-! ## Walk unfolding equations -/

lemma walkEntries_node (cfg : ScanCfg) (wp : List String) (files : List String)
    (dirs : List (String × FSTree)) :
    walkEntries cfg wp (.node files dirs) =
      (if basenameOf (cfg.rootParts ++ wp) == cfg.extract_folder then
        walkDirs cfg wp false dirs
      else
        files.map (fun f => (wp, f)) ++ walkDirs cfg wp true dirs) := rfl

lemma walkDirs_nil (cfg : ScanCfg) (wp : List String) (prune : Bool) :
    walkDirs cfg wp prune [] = [] := rfl

lemma walkDirs_cons (cfg : ScanCfg) (wp : List String) (prune : Bool)
    (d : String) (t : FSTree) (rest : List (String × FSTree)) :
    walkDirs cfg wp prune ((d, t) :: rest) =
      (if prune && (d == cfg.extract_folder) then walkDirs cfg wp false rest
      else walkEntries cfg (wp ++ [d]) t ++ walkDirs cfg wp prune rest) := rfl

/-! ## Concrete fixtures used by counterexamples and witnesses -/

/-- Collaborators that never succeed and count no tokens. -/
def collabNone : Collab := ⟨fun _ => none, fun _ => false, fun _ => false⟩

/-- A scan configuration rooted at a directory named `lib`. -/
def cfgLib : ScanCfg := ⟨["lib"], "textracted", [], false, false⟩

/-- A scan configuration whose root itself is named like the extraction
folder. -/
def cfgRootExtract : ScanCfg := ⟨["textracted"], "textracted", [], false, false⟩

/-- Witness for claim C9: a concrete run with conversion off leaves the
scanned tree and the effect trace untouched. -/
theorem scanner_purity_witness :
    cfgLib.convert = false ∧
      ((scanFull cfgLib collabNone [] (.node ["a.pdf"] [])).cur = .node ["a.pdf"] [] ∧
       (scanFull cfgLib collabNone [] (.node ["a.pdf"] [])).effs = []) :=
  ⟨rfl, scanner_purity cfgLib collabNone [] (.node ["a.pdf"] []) rfl⟩

/-- Claim C8, corrected part: a root directory named like the extraction
folder and holding one PDF directly — the walk skips the root basename like
any other extraction directory, so the PDF is neither visited nor cataloged,
against the claimed root exception. -/
theorem extraction_root_exception_counterexample :
    scan_and_update_catalog cfgRootExtract collabNone []
        (.node ["a.pdf"] [("docs", .node ["b.pdf"] [])])
      = [⟨"docs", "b", "pdf", some false, none⟩]
    ∧ walkEntries cfgRootExtract [] (.node ["a.pdf"] [])
      = [] := by decide

/-- Claim C8 as amended: every visited directory whose basename equals the
configured extraction-folder name — including the scan root itself — has its
direct files skipped by the walk: the visit order is the same as if the
directory had no files at all.  (Subdirectories are still traversed, because
the `continue` fires before the prune.) -/
theorem extraction_folder_pruning (cfg : ScanCfg) (wp : List String)
    (files : List String) (dirs : List (String × FSTree))
    (h : basenameOf (cfg.rootParts ++ wp) = cfg.extract_folder) :
    walkEntries cfg wp (.node files dirs) = walkEntries cfg wp (.node [] dirs) := by
  rw [walkEntries_node, walkEntries_node]
  have hb : (basenameOf (cfg.rootParts ++ wp) == cfg.extract_folder) = true := by
    simpa using h
  rw [if_pos hb, if_pos hb]

/-- Witness for the amended claim C8 at a concrete root named like the
extraction folder. -/
theorem extraction_folder_pruning_witness :
    walkEntries cfgRootExtract [] (.node ["a.pdf"] [("docs", .node ["b.pdf"] [])])
      = walkEntries cfgRootExtract [] (.node [] [("docs", .node ["b.pdf"] [])]) :=
  extraction_folder_pruning cfgRootExtract [] ["a.pdf"]
    [("docs", .node ["b.pdf"] [])] (by decide)

/-- Claim C3, code bug: a root holding `paper.pdf` with its extracted
artifact `textracted/paper.txt` (the scenario of the specification) yields a
catalog row whose `textracted` cell is unset — the source comment at line
178 says `mark as extracted - regardless of convert flag`, but line 220 only
assigns `record["textracted"]` inside the opposite branch, so the record
dict never receives the key and pandas persists a blank cell, not `True`.
A Markdown file with an existing `.txt` sibling is likewise reported
`False` when conversion is off, although the claim requires `true`. -/
theorem textracted_unset_bug :
    scan_and_update_catalog cfgLib collabNone []
        (.node ["paper.pdf"] [("textracted", .node ["paper.txt"] [])])
      = [⟨".", "paper", "pdf", none, none⟩]
    ∧ scan_and_update_catalog cfgLib collabNone []
        (.node ["note.md", "note.txt"] [])
      = [⟨".", "note", "md", some false, none⟩,
         ⟨".", "note", "txt", some false, none⟩] := by decide

/-- Claim C4 (folder-scoped correlation): with conversion off, the record
the PDF branch produces depends on the filesystem only through the presence
of the text artifact at the extraction directory of the PDF's own top-level
folder; when that artifact is absent the flag is `false` no matter what
exists under other folders, and whenever the flag is set (or left unset by
the line-220 bug) the own-folder artifact is present. -/
theorem folder_scoped_correlation (cfg : ScanCfg) (cl : Collab)
    (cat : List Row) (wp : List String) (f : String)
    (hconv : cfg.convert = false) :
    (wp ≠ [] →
      pdfTxtPath cfg wp f = [wp.headD "", cfg.extract_folder, (splitext f).1 ++ ".txt"])
    ∧ (∀ cur1 cur2 : FSTree,
        hasFile (pdfTxtPath cfg wp f) cur1 = hasFile (pdfTxtPath cfg wp f) cur2 →
        (processPdf cfg cl cat wp f ⟨[], cur1, []⟩).records
          = (processPdf cfg cl cat wp f ⟨[], cur2, []⟩).records)
    ∧ (∀ cur : FSTree, hasFile (pdfTxtPath cfg wp f) cur = false →
        (processPdf cfg cl cat wp f ⟨[], cur, []⟩).records
          = [⟨relDir wp, (splitext f).1, get_file_extension f, some false, none⟩])
    ∧ (∀ (cur : FSTree) (rec : Row),
        (processPdf cfg cl cat wp f ⟨[], cur, []⟩).records = [rec] →
        rec.textracted ≠ some false →
        hasFile (pdfTxtPath cfg wp f) cur = true) := by
  refine ⟨?_, ?_, ?_, ?_⟩
  · intro hwp
    unfold pdfTxtPath pdfTxtDir
    rw [if_neg (by simpa using hwp)]
    rfl
  · intro cur1 cur2 hsame
    unfold processPdf pdfSkipCat
    simp only [hconv, Bool.false_eq_true, if_false]
    rcases hlook : catalogLookup cat (relDir wp) (splitext f).1 (lstripDots (splitext f).2) with
      _ | row
    · simp only [hsame]
      repeat' split
      all_goals rfl
    · simp only [hsame]
      repeat' split
      all_goals rfl
  · intro cur habs
    unfold processPdf pdfSkipCat
    simp only [hconv, Bool.false_eq_true, if_false, habs, Bool.and_false]
    rcases hlook : catalogLookup cat (relDir wp) (splitext f).1 (lstripDots (splitext f).2) with
      _ | row
    · simp
    · simp
  · intro cur rec hrec hne
    by_cases hhas : hasFile (pdfTxtPath cfg wp f) cur = true
    · exact hhas
    · exfalso
      apply hne
      have habs : hasFile (pdfTxtPath cfg wp f) cur = false := by
        simpa using hhas
      unfold processPdf pdfSkipCat at hrec
      simp only [hconv, Bool.false_eq_true, if_false, habs, Bool.and_false] at hrec
      rcases hlook : catalogLookup cat (relDir wp) (splitext f).1 (lstripDots (splitext f).2) with
        _ | row
      · rw [hlook] at hrec
        simp at hrec
        rw [← hrec]
      · rw [hlook] at hrec
        simp at hrec
        rw [← hrec]

/-- Witness for claim C4 at a concrete pair of folders: folder `B` holds
`s.pdf` and only folder `A` holds an artifact `textracted/s.txt`; the record
for the PDF in `B` is the same as on a filesystem with no artifact at all,
and its flag is `false`. -/
theorem folder_scoped_correlation_witness :
    (processPdf cfgLib collabNone [] ["B"] "s.pdf"
        ⟨[], .node [] [("A", .node [] [("textracted", .node ["s.txt"] [])]),
                       ("B", .node ["s.pdf"] [])], []⟩).records
      = (processPdf cfgLib collabNone [] ["B"] "s.pdf"
          ⟨[], .node [] [], []⟩).records :=
  (folder_scoped_correlation cfgLib collabNone [] ["B"] "s.pdf" rfl).2.1
    (.node [] [("A", .node [] [("textracted", .node ["s.txt"] [])]),
               ("B", .node ["s.pdf"] [])])
    (.node [] []) (by decide)

/-! ## Grouping and pairing lemmas -/

lemma filter_map_comm {α β : Type} (f : α → β) (p : β → Bool) (l : List α) :
    (l.map f).filter p = (l.filter (fun x => p (f x))).map f := by
  induction l with
  | nil => rfl
  | cons x xs ih =>
    by_cases h : p (f x) = true
    · simp only [List.map_cons, List.filter_cons, h, if_true, ih]
    · simp only [List.map_cons, List.filter_cons, h, Bool.false_eq_true, if_false, ih]

lemma firstKeys_map {α β κ : Type} [BEq κ] (f : α → β) (key : β → κ) (l : List α) :
    firstKeys key (l.map f) = firstKeys (fun x => key (f x)) l := by
  induction l with
  | nil => rfl
  | cons x xs ih => simp only [List.map_cons, firstKeys, ih]

lemma groupByKey_map {α β κ : Type} [BEq κ] (f : α → β) (key : β → κ) (l : List α) :
    groupByKey key (l.map f)
      = (groupByKey (fun x => key (f x)) l).map (fun g => (g.1, g.2.map f)) := by
  unfold groupByKey
  rw [firstKeys_map, List.map_map]
  refine List.map_congr_left ?_
  intro k _
  simp only [Function.comp_apply]
  rw [filter_map_comm]

lemma pairsOf_map {α β : Type} (f : α → β) (l : List α) :
    pairsOf (l.map f) = (pairsOf l).map (fun p => (f p.1, f p.2)) := by
  induction l with
  | nil => rfl
  | cons x xs ih =>
    simp only [List.map_cons, pairsOf, ih, List.map_append, List.map_map]
    rfl

lemma mem_pairsOf_parts {α : Type} {p : α × α} {l : List α} (hp : p ∈ pairsOf l) :
    p.1 ∈ l ∧ p.2 ∈ l := by
  induction l with
  | nil => simp [pairsOf] at hp
  | cons x xs ih =>
    rw [pairsOf, List.mem_append] at hp
    rcases hp with h | h
    · rcases List.mem_map.mp h with ⟨y, hy, hyp⟩
      subst hyp
      exact ⟨List.mem_cons_self _ _, List.mem_cons_of_mem _ hy⟩
    · rcases ih h with ⟨h1, h2⟩
      exact ⟨List.mem_cons_of_mem _ h1, List.mem_cons_of_mem _ h2⟩

lemma mem_pairsOf_iff_lt {α : Type} {l : List (ℕ × α)}
    (hl : l.Pairwise (fun a b => a.1 < b.1)) (x y : ℕ × α) :
    ((x, y) ∈ pairsOf l) ↔ x ∈ l ∧ y ∈ l ∧ x.1 < y.1 := by
  induction l with
  | nil => simp [pairsOf]
  | cons a t ih =>
    have hpw := List.pairwise_cons.mp hl
    constructor
    · intro h
      rw [pairsOf, List.mem_append] at h
      rcases h with h | h
      · rcases List.mem_map.mp h with ⟨b, hb, hba⟩
        have hx : a = x := congrArg Prod.fst hba
        have hy : b = y := congrArg Prod.snd hba
        refine ⟨?_, ?_, ?_⟩
        · rw [← hx]; exact List.mem_cons_self _ _
        · rw [← hy]; exact List.mem_cons_of_mem _ hb
        · have hab := hpw.1 b hb
          rw [hx, hy] at hab
          exact hab
      · rcases (ih hpw.2).mp h with ⟨h1, h2, h3⟩
        exact ⟨List.mem_cons_of_mem _ h1, List.mem_cons_of_mem _ h2, h3⟩
    · rintro ⟨hx, hy, hlt⟩
      rw [pairsOf, List.mem_append]
      rcases List.mem_cons.mp hx with hxa | hxt
      · subst hxa
        rcases List.mem_cons.mp hy with hya | hyt
        · exact absurd hlt (by rw [hya]; exact lt_irrefl _)
        · exact Or.inl (List.mem_map.mpr ⟨y, hyt, rfl⟩)
      · rcases List.mem_cons.mp hy with hya | hyt
        · exfalso
          have := hpw.1 x hxt
          rw [hya] at hlt
          exact absurd (this.trans hlt) (lt_irrefl _)
        · exact Or.inr ((ih hpw.2).mpr ⟨hxt, hyt, hlt⟩)

lemma pairsOf_nodup {α : Type} {l : List (ℕ × α)}
    (hl : l.Pairwise (fun a b => a.1 < b.1)) : (pairsOf l).Nodup := by
  induction l with
  | nil => simp [pairsOf]
  | cons a t ih =>
    have hpw := List.pairwise_cons.mp hl
    rw [pairsOf]
    refine List.Nodup.append ?_ (ih hpw.2) ?_
    · refine List.Nodup.map (fun y z hyz => ?_) ?_
      · simpa using congrArg Prod.snd hyz
      · have hne : t.Pairwise (fun a b : ℕ × α => a ≠ b) :=
          hpw.2.imp (fun h => by intro he; rw [he] at h; exact lt_irrefl _ h)
        exact hne
    · intro p hpmap hppairs
      rcases List.mem_map.mp hpmap with ⟨y, _, hyp⟩
      have h1 : p.1 = a := by rw [← hyp]
      have h2 := (mem_pairsOf_parts hppairs).1
      rw [h1] at h2
      exact absurd (hpw.1 a h2) (lt_irrefl _)

lemma mem_firstKeys {α κ : Type} [BEq κ] [LawfulBEq κ] {key : α → κ} {l : List α} {k : κ} :
    k ∈ firstKeys key l ↔ ∃ x ∈ l, key x = k := by
  induction l with
  | nil => simp [firstKeys]
  | cons x xs ih =>
    rw [firstKeys]
    constructor
    · intro h
      rcases List.mem_cons.mp h with h1 | h2
      · exact ⟨x, List.mem_cons_self _ _, h1.symm⟩
      · rcases ih.mp (List.mem_filter.mp h2).1 with ⟨y, hy, hyk⟩
        exact ⟨y, List.mem_cons_of_mem _ hy, hyk⟩
    · rintro ⟨y, hy, hyk⟩
      rcases List.mem_cons.mp hy with h1 | h2
      · subst h1; rw [hyk]; exact List.mem_cons_self _ _
      · by_cases hkx : k = key x
        · rw [hkx]; exact List.mem_cons_self _ _
        · refine List.mem_cons_of_mem _ (List.mem_filter.mpr ⟨ih.mpr ⟨y, h2, hyk⟩, ?_⟩)
          simpa using hkx

lemma firstKeys_nodup {α κ : Type} [BEq κ] [LawfulBEq κ] (key : α → κ) (l : List α) :
    (firstKeys key l).Nodup := by
  induction l with
  | nil => simp [firstKeys]
  | cons x xs ih =>
    rw [firstKeys]
    refine List.Nodup.cons ?_ (List.Nodup.filter _ ih)
    intro hmem
    have := (List.mem_filter.mp hmem).2
    simp at this

lemma mem_groupByKey {α κ : Type} [BEq κ] {key : α → κ} {l : List α}
    {k : κ} {g : List α} :
    (k, g) ∈ groupByKey key l ↔
      k ∈ firstKeys key l ∧ g = l.filter (fun x => key x == k) := by
  unfold groupByKey
  constructor
  · intro h
    rcases List.mem_map.mp h with ⟨k0, hk0, heq⟩
    have h1 : k0 = k := congrArg Prod.fst heq
    have h2 := congrArg Prod.snd heq
    subst h1
    exact ⟨hk0, h2.symm⟩
  · rintro ⟨hk, rfl⟩
    exact List.mem_map.mpr ⟨k, hk, rfl⟩

lemma enumFrom_pairwise_fst {α : Type} (n : ℕ) (l : List α) :
    (List.enumFrom n l).Pairwise (fun a b => a.1 < b.1) := by
  induction l generalizing n with
  | nil => simp
  | cons x xs ih =>
    rw [List.enumFrom_cons]
    refine List.Pairwise.cons ?_ (ih (n + 1))
    rintro ⟨i, a⟩ hb
    have := (List.mem_enumFrom hb).1
    simpa using Nat.lt_of_succ_le this

lemma enum_pairwise_fst {α : Type} (l : List α) :
    l.enum.Pairwise (fun a b => a.1 < b.1) := enumFrom_pairwise_fst 0 l

lemma two_le_length_of_two_mem {α : Type} {l : List α} {x y : α}
    (hx : x ∈ l) (hy : y ∈ l) (hne : x ≠ y) : 2 ≤ l.length := by
  cases l with
  | nil => simp at hx
  | cons a t =>
    cases t with
    | nil =>
      simp at hx hy
      exact absurd (hx.trans hy.symm) hne
    | cons b u => simp [List.length_cons]

/-! ## Exact-pass characterization -/

lemma filter2_enum_pairwise {α : Type} (l : List α)
    (p1 p2 : ℕ × α → Bool) :
    ((l.enum.filter p1).filter p2).Pairwise (fun a b => a.1 < b.1) :=
  ((enum_pairwise_fst l).filter _).filter _

lemma mem_shaPairsIdx {records : List DRec} {p q : ℕ × DRec} :
    ((p, q) ∈ shaPairsIdx records) ↔
      p ∈ records.enum ∧ q ∈ records.enum ∧ p.1 < q.1 ∧
        p.2.sha256 = q.2.sha256 ∧ shaOk p.2.sha256 = true := by
  unfold shaPairsIdx
  rw [List.mem_flatMap]
  constructor
  · rintro ⟨⟨k, g⟩, hg, hpq⟩
    rcases mem_groupByKey.mp hg with ⟨_, rfl⟩
    dsimp only at hpq
    split at hpq
    · simp at hpq
    · rw [mem_pairsOf_iff_lt (filter2_enum_pairwise records _ _)] at hpq
      rcases hpq with ⟨hp, hq, hlt⟩
      rcases List.mem_filter.mp hp with ⟨hp1, hpk⟩
      rcases List.mem_filter.mp hq with ⟨hq1, hqk⟩
      rcases List.mem_filter.mp hp1 with ⟨hpe, hpok⟩
      rcases List.mem_filter.mp hq1 with ⟨hqe, _⟩
      refine ⟨hpe, hqe, hlt, ?_, hpok⟩
      have h1 : p.2.sha256 = k := by simpa using hpk
      have h2 : q.2.sha256 = k := by simpa using hqk
      rw [h1, h2]
  · rintro ⟨hp, hq, hlt, hsha, hok⟩
    have hk : p.2.sha256 ∈ firstKeys (fun x : ℕ × DRec => x.2.sha256)
        (records.enum.filter (fun x => shaOk x.2.sha256)) :=
      mem_firstKeys.mpr ⟨p, List.mem_filter.mpr ⟨hp, hok⟩, rfl⟩
    refine ⟨_, mem_groupByKey.mpr ⟨hk, rfl⟩, ?_⟩
    dsimp only
    have hpmem : p ∈ (records.enum.filter (fun x => shaOk x.2.sha256)).filter
        (fun x => x.2.sha256 == p.2.sha256) :=
      List.mem_filter.mpr ⟨List.mem_filter.mpr ⟨hp, hok⟩, by simp⟩
    have hqmem : q ∈ (records.enum.filter (fun x => shaOk x.2.sha256)).filter
        (fun x => x.2.sha256 == p.2.sha256) := by
      refine List.mem_filter.mpr ⟨List.mem_filter.mpr ⟨hq, ?_⟩, ?_⟩
      · rw [← hsha]; exact hok
      · simp [hsha]
    have hne : p ≠ q := by
      intro he
      rw [he] at hlt
      exact lt_irrefl _ hlt
    rw [if_neg (Nat.not_lt.mpr (two_le_length_of_two_mem hpmem hqmem hne))]
    exact (mem_pairsOf_iff_lt (filter2_enum_pairwise records _ _) p q).mpr
      ⟨hpmem, hqmem, hlt⟩

lemma shaPairsIdx_nodup (records : List DRec) : (shaPairsIdx records).Nodup := by
  unfold shaPairsIdx
  rw [List.nodup_flatMap]
  constructor
  · rintro ⟨k, g⟩ hg
    rcases mem_groupByKey.mp hg with ⟨_, rfl⟩
    dsimp only
    split
    · exact List.nodup_nil
    · exact pairsOf_nodup (filter2_enum_pairwise records _ _)
  · unfold groupByKey
    rw [List.pairwise_map]
    have hkeys := firstKeys_nodup
      (fun p : ℕ × DRec => p.2.sha256)
      (records.enum.filter (fun p => shaOk p.2.sha256))
    refine hkeys.imp ?_
    intro k1 k2 hk12
    intro pr hpr1 hpr2
    dsimp only at hpr1 hpr2
    apply hk12
    have h1 : pr.1.2.sha256 = k1 := by
      split at hpr1
      · simp at hpr1
      · have hmem := (mem_pairsOf_parts hpr1).1
        simpa using (List.mem_filter.mp hmem).2
    have h2 : pr.1.2.sha256 = k2 := by
      split at hpr2
      · simp at hpr2
      · have hmem := (mem_pairsOf_parts hpr2).1
        simpa using (List.mem_filter.mp hmem).2
    rw [← h1, ← h2]

lemma exactPass_eq_map (records : List DRec) :
    exactPassRows records
      = (shaPairsIdx records).map (fun pr => mkExactRow pr.1.2 pr.2.2) := by
  unfold exactPassRows shaPairsIdx
  have hE : records.filter (fun r => shaOk r.sha256)
      = (records.enum.filter (fun p => shaOk p.2.sha256)).map Prod.snd := by
    rw [← List.enum_map_snd records, filter_map_comm, List.enum_map_snd]
  rw [hE, groupByKey_map, List.flatMap_map, List.map_flatMap]
  refine congrArg _ (funext ?_)
  intro g
  dsimp only
  rw [List.length_map, pairsOf_map, List.map_map,
    apply_ite (List.map (fun pr : (ℕ × DRec) × (ℕ × DRec) =>
      mkExactRow pr.1.2 pr.2.2))]
  rfl


/-! ## Claims on the duplicate finder -/

/-- Claim C5 (exact precedence): the exact pass pairs exactly the ordered
position pairs holding the same non-blank sha256, each such pair of records
once (the pair list mirrors the pass and is duplicate-free), every exact row
is labeled `exact`, records with an empty or blank hash never enter the
pass, and in the merged output every row carrying the identity tuple of an
exact row is labeled `exact` — never `high` or `possible`. -/
theorem exact_precedence (tsr : String → String → ℚ) (levd : String → String → ℕ)
    (records : List DRec) :
    exactPassRows records
      = (shaPairsIdx records).map (fun pr => mkExactRow pr.1.2 pr.2.2)
    ∧ (∀ p q : ℕ × DRec, ((p, q) ∈ shaPairsIdx records) ↔
        (p ∈ records.enum ∧ q ∈ records.enum ∧ p.1 < q.1
          ∧ p.2.sha256 = q.2.sha256 ∧ shaOk p.2.sha256 = true))
    ∧ (shaPairsIdx records).Nodup
    ∧ (∀ r ∈ exactPassRows records, r.confidence = "exact")
    ∧ (∀ r ∈ find_and_save_rows tsr levd records,
        rowTuple r ∈ (exactPassRows records).map rowTuple →
          r.confidence = "exact") := by
  refine ⟨exactPass_eq_map records, fun p q => mem_shaPairsIdx,
    shaPairsIdx_nodup records, ?_, ?_⟩
  · intro r hr
    rw [exactPass_eq_map records] at hr
    rcases List.mem_map.mp hr with ⟨pr, _, hpr⟩
    rw [← hpr]
    rfl
  · intro r hr htuple
    unfold find_and_save_rows at hr
    rcases List.mem_append.mp hr with hex | hfz
    · rw [exactPass_eq_map records] at hex
      rcases List.mem_map.mp hex with ⟨pr, _, hpr⟩
      rw [← hpr]
      rfl
    · exfalso
      have hcond := (List.mem_filter.mp hfz).2
      have hnc : ((exactPassRows records).map rowTuple).contains (rowTuple r) = false := by
        simpa using hcond
      simp at hnc
      rcases List.mem_map.mp htuple with ⟨a, ha, heq⟩
      exact hnc a ha heq

/-- A constant token-sort score of 85 (between the two thresholds). -/
def tsr85 : String → String → ℚ := fun _ _ => 85

/-- A zero edit distance, giving a normalized Levenshtein ratio of 1. -/
def levdZero : String → String → ℕ := fun _ _ => 0

/-- Two same-folder records with equal sizes and the same hash. -/
def recSha1 : DRec := ⟨"F1", "report final.pdf", 1, some "abc"⟩

/-- Companion of `recSha1`, a near-identical filename with the same hash. -/
def recSha2 : DRec := ⟨"F1", "report_final.pdf", 1, some "abc"⟩

/-- Witness for claim C5: on two same-hash, same-size, similar-name records
— which do produce a fuzzy candidate pair — the merged output row is labeled
`exact`. -/
theorem exact_precedence_witness :
    OutRow.confidence (mkExactRow recSha1 recSha2) = "exact" :=
  (exact_precedence tsr85 levdZero [recSha1, recSha2]).2.2.2.2
    (mkExactRow recSha1 recSha2) (by decide) (by decide)

/-- Claim C10 (exact-pair folder attribution): every exact row takes its
`top_level_folder` and `file_size_MB` from the first record of the pair; a
pair of same-hash records is emitted once even across different top-level
folders, attributed to the first record, and the second record's folder
never appears in that row. -/
theorem exact_pair_attribution (records : List DRec) (r1 r2 : DRec)
    (hsha : r1.sha256 = r2.sha256) (hok : shaOk r1.sha256 = true) :
    exactPassRows records
      = (shaPairsIdx records).map (fun pr =>
          ⟨pr.1.2.top_level_folder, pr.1.2.filename, pr.2.2.filename,
            pr.1.2.file_size_MB, "exact"⟩)
    ∧ exactPassRows [r1, r2]
        = [⟨r1.top_level_folder, r1.filename, r2.filename, r1.file_size_MB, "exact"⟩]
    ∧ (r1.top_level_folder ≠ r2.top_level_folder →
        ∀ r ∈ exactPassRows [r1, r2], r.top_level_folder ≠ r2.top_level_folder) := by
  have h2 : exactPassRows [r1, r2]
      = [⟨r1.top_level_folder, r1.filename, r2.filename, r1.file_size_MB, "exact"⟩] := by
    have hok2 : shaOk r2.sha256 = true := by rw [← hsha]; exact hok
    have hbeq : (r2.sha256 == r1.sha256) = true := by simp [hsha]
    simp [exactPassRows, groupByKey, firstKeys, pairsOf, List.filter_cons,
      hok, hok2, hbeq, mkExactRow, hsha.symm]
  refine ⟨exactPass_eq_map records, h2, ?_⟩
  intro hfold r hr
  rw [h2] at hr
  rcases List.mem_cons.mp hr with h | h
  · rw [h]
    exact hfold
  · simp at h

/-- A record in folder `FolderA`. -/
def recXa : DRec := ⟨"FolderA", "x.pdf", 1, some "h1"⟩

/-- A record in folder `FolderB` with the same hash as `recXa`. -/
def recXb : DRec := ⟨"FolderB", "y.pdf", 2, some "h1"⟩

/-- Witness for claim C10: two same-hash records in different folders yield
one exact row attributed to the first folder and size, and that row does not
carry the second folder. -/
theorem exact_pair_attribution_witness :
    exactPassRows [recXa, recXb]
      = [⟨"FolderA", "x.pdf", "y.pdf", 1, "exact"⟩]
    ∧ OutRow.top_level_folder ⟨"FolderA", "x.pdf", "y.pdf", 1, "exact"⟩ ≠ "FolderB" :=
  ⟨(exact_pair_attribution [recXa, recXb] recXa recXb rfl (by decide)).2.1,
   (exact_pair_attribution [recXa, recXb] recXa recXb rfl (by decide)).2.2
     (by decide) ⟨"FolderA", "x.pdf", "y.pdf", 1, "exact"⟩ (by
       rw [(exact_pair_attribution [recXa, recXb] recXa recXb rfl (by decide)).2.1]
       exact List.mem_cons_self _ _)⟩

/-! ## Fuzzy-pass characterization -/

lemma flatMap_congr_mem {α β : Type} {l : List α} {f g : α → List β}
    (h : ∀ a ∈ l, f a = g a) : l.flatMap f = l.flatMap g := by
  induction l with
  | nil => rfl
  | cons x xs ih =>
    rw [List.flatMap_cons, List.flatMap_cons, h x (List.mem_cons_self _ _),
      ih (fun a ha => h a (List.mem_cons_of_mem _ ha))]

lemma mem_sizePairsIdx {records : List DRec} {p q : ℕ × DRec} :
    ((p, q) ∈ sizePairsIdx records) ↔
      p ∈ records.enum ∧ q ∈ records.enum ∧ p.1 < q.1 ∧
        p.2.top_level_folder = q.2.top_level_folder ∧
        p.2.file_size_MB = q.2.file_size_MB := by
  unfold sizePairsIdx
  rw [List.mem_flatMap]
  constructor
  · rintro ⟨⟨k1, g1⟩, hg1, hin⟩
    rcases mem_groupByKey.mp hg1 with ⟨_, rfl⟩
    dsimp only at hin
    rw [List.mem_flatMap] at hin
    rcases hin with ⟨⟨k2, g2⟩, hg2, hpq⟩
    rcases mem_groupByKey.mp hg2 with ⟨_, rfl⟩
    dsimp only at hpq
    split at hpq
    · simp at hpq
    · rw [mem_pairsOf_iff_lt (filter2_enum_pairwise records _ _)] at hpq
      rcases hpq with ⟨hp, hq, hlt⟩
      rcases List.mem_filter.mp hp with ⟨hp1, hpk2⟩
      rcases List.mem_filter.mp hq with ⟨hq1, hqk2⟩
      rcases List.mem_filter.mp hp1 with ⟨hpe, hpk1⟩
      rcases List.mem_filter.mp hq1 with ⟨hqe, hqk1⟩
      refine ⟨hpe, hqe, hlt, ?_, ?_⟩
      · have h1 : p.2.top_level_folder = k1 := by simpa using hpk1
        have h2 : q.2.top_level_folder = k1 := by simpa using hqk1
        rw [h1, h2]
      · have h1 : p.2.file_size_MB = k2 := by simpa using hpk2
        have h2 : q.2.file_size_MB = k2 := by simpa using hqk2
        rw [h1, h2]
  · rintro ⟨hp, hq, hlt, hfold, hsize⟩
    have hk1 : p.2.top_level_folder ∈ firstKeys
        (fun x : ℕ × DRec => x.2.top_level_folder) records.enum :=
      mem_firstKeys.mpr ⟨p, hp, rfl⟩
    refine ⟨_, mem_groupByKey.mpr ⟨hk1, rfl⟩, ?_⟩
    dsimp only
    rw [List.mem_flatMap]
    have hpg1 : p ∈ records.enum.filter
        (fun x => x.2.top_level_folder == p.2.top_level_folder) :=
      List.mem_filter.mpr ⟨hp, by simp⟩
    have hqg1 : q ∈ records.enum.filter
        (fun x => x.2.top_level_folder == p.2.top_level_folder) :=
      List.mem_filter.mpr ⟨hq, by simp [hfold]⟩
    have hk2 : p.2.file_size_MB ∈ firstKeys (fun x : ℕ × DRec => x.2.file_size_MB)
        (records.enum.filter (fun x => x.2.top_level_folder == p.2.top_level_folder)) :=
      mem_firstKeys.mpr ⟨p, hpg1, rfl⟩
    refine ⟨_, mem_groupByKey.mpr ⟨hk2, rfl⟩, ?_⟩
    dsimp only
    have hpg2 : p ∈ (records.enum.filter
        (fun x => x.2.top_level_folder == p.2.top_level_folder)).filter
          (fun x => x.2.file_size_MB == p.2.file_size_MB) :=
      List.mem_filter.mpr ⟨hpg1, by simp⟩
    have hqg2 : q ∈ (records.enum.filter
        (fun x => x.2.top_level_folder == p.2.top_level_folder)).filter
          (fun x => x.2.file_size_MB == p.2.file_size_MB) :=
      List.mem_filter.mpr ⟨hqg1, by simp [hsize]⟩
    have hne : p ≠ q := by
      intro he
      rw [he] at hlt
      exact lt_irrefl _ hlt
    rw [if_neg (Nat.not_lt.mpr (two_le_length_of_two_mem hpg2 hqg2 hne))]
    exact (mem_pairsOf_iff_lt (filter2_enum_pairwise records _ _) p q).mpr
      ⟨hpg2, hqg2, hlt⟩

lemma find_duplicates_eq_map (records : List DRec) :
    find_duplicates records
      = (sizePairsIdx records).map (fun pr =>
          ⟨pr.1.2.top_level_folder, pr.1.2.filename, pr.2.2.filename,
            pr.1.2.file_size_MB⟩) := by
  unfold find_duplicates sizePairsIdx
  conv_lhs => rw [show records = records.enum.map Prod.snd from
    (List.enum_map_snd records).symm]
  rw [groupByKey_map, List.flatMap_map, List.map_flatMap]
  refine flatMap_congr_mem ?_
  rintro ⟨k1, g1⟩ hg1
  rcases mem_groupByKey.mp hg1 with ⟨_, rfl⟩
  dsimp only
  rw [groupByKey_map, List.flatMap_map, List.map_flatMap]
  refine flatMap_congr_mem ?_
  rintro ⟨k2, g2⟩ hg2
  rcases mem_groupByKey.mp hg2 with ⟨_, rfl⟩
  dsimp only
  rw [List.length_map, pairsOf_map, List.map_map,
    apply_ite (List.map (fun pr : (ℕ × DRec) × (ℕ × DRec) =>
      (⟨pr.1.2.top_level_folder, pr.1.2.filename, pr.2.2.filename,
        pr.1.2.file_size_MB⟩ : FPair)))]
  by_cases hlen : (((records.enum.filter
      (fun x => x.2.top_level_folder == k1)).filter
        (fun x => x.2.file_size_MB == k2))).length < 2
  · rw [if_pos hlen, if_pos hlen]
    rfl
  · rw [if_neg hlen, if_neg hlen]
    refine List.map_congr_left ?_
    intro pr hpr
    have hp1 := (mem_pairsOf_parts hpr).1
    rcases List.mem_filter.mp hp1 with ⟨hp2, hpk2⟩
    rcases List.mem_filter.mp hp2 with ⟨_, hpk1⟩
    have h1 : pr.1.2.top_level_folder = k1 := by simpa using hpk1
    have h2 : pr.1.2.file_size_MB = k2 := by simpa using hpk2
    simp only [Function.comp_apply]
    rw [h1, h2]

lemma fuzzy_pipeline (tsr : String → String → ℚ) (levd : String → String → ℕ)
    (l : List FPair) :
    ((compute_similarity tsr levd l).filter
        (fun r => decide ((80 : ℚ) ≤ r.token_sort_ratio) &&
          decide (q70 ≤ r.normalized_levenshtein))).map
      (fun r => (⟨r.top_level_folder, r.filename1, r.filename2,
        r.file_size_MB, r.confidence⟩ : OutRow))
    = l.filterMap (fun pr =>
        if (80 : ℚ) ≤ tsr pr.filename1 pr.filename2
            ∧ q70 ≤ normalizedLev levd pr.filename1 pr.filename2 then
          some ⟨pr.top_level_folder, pr.filename1, pr.filename2, pr.file_size_MB,
            confidenceOf (tsr pr.filename1 pr.filename2)
              (normalizedLev levd pr.filename1 pr.filename2)⟩
        else none) := by
  induction l with
  | nil => rfl
  | cons pr rest ih =>
    rw [compute_similarity, List.map_cons, List.filter_cons, List.filterMap_cons]
    by_cases hc : (80 : ℚ) ≤ tsr pr.filename1 pr.filename2
        ∧ q70 ≤ normalizedLev levd pr.filename1 pr.filename2
    · rw [if_pos hc]
      have hb : (decide ((80 : ℚ) ≤ tsr pr.filename1 pr.filename2) &&
          decide (q70 ≤ normalizedLev levd pr.filename1 pr.filename2)) = true := by
        simp [hc.1, hc.2]
      simp only [hb, if_true, List.map_cons]
      rw [← compute_similarity, ih]
    · rw [if_neg hc]
      have hb : (decide ((80 : ℚ) ≤ tsr pr.filename1 pr.filename2) &&
          decide (q70 ≤ normalizedLev levd pr.filename1 pr.filename2)) = false := by
        rcases Decidable.not_and_iff_or_not.mp hc with h | h
        · simp [h]
        · simp [h]
      simp only [hb, Bool.false_eq_true, if_false]
      rw [← compute_similarity, ih]

/-- Claim C6 (fuzzy classification): a fuzzy candidate pair is formed only
from two records (distinct positions of the record list) sharing the
top-level folder and the exact size; the kept fuzzy rows are exactly the
candidate pairs passing both thresholds, carrying the classified
confidence; and a kept row is `high` iff `token_sort_ratio ≥ 90` and
`normalized_levenshtein ≥ 0.85`, `possible` iff both lower thresholds hold
but the high condition fails — pairs below the lower thresholds are omitted
entirely by the characterization. -/
theorem fuzzy_classification (tsr : String → String → ℚ)
    (levd : String → String → ℕ) (records : List DRec) :
    (∀ pr ∈ find_duplicates records, ∃ p q : ℕ × DRec,
        p ∈ records.enum ∧ q ∈ records.enum ∧ p.1 < q.1
        ∧ p.2.top_level_folder = pr.top_level_folder
        ∧ q.2.top_level_folder = pr.top_level_folder
        ∧ p.2.file_size_MB = pr.file_size_MB
        ∧ q.2.file_size_MB = pr.file_size_MB
        ∧ p.2.filename = pr.filename1 ∧ q.2.filename = pr.filename2)
    ∧ fuzzyKeptRows tsr levd records = (find_duplicates records).filterMap (fun pr =>
        if (80 : ℚ) ≤ tsr pr.filename1 pr.filename2
            ∧ q70 ≤ normalizedLev levd pr.filename1 pr.filename2 then
          some ⟨pr.top_level_folder, pr.filename1, pr.filename2, pr.file_size_MB,
            confidenceOf (tsr pr.filename1 pr.filename2)
              (normalizedLev levd pr.filename1 pr.filename2)⟩
        else none)
    ∧ (∀ r ∈ fuzzyKeptRows tsr levd records,
        (r.confidence = "high" ↔ (90 ≤ tsr r.filename1 r.filename2
          ∧ q85 ≤ normalizedLev levd r.filename1 r.filename2))
        ∧ (r.confidence = "possible" ↔ ((80 : ℚ) ≤ tsr r.filename1 r.filename2
          ∧ q70 ≤ normalizedLev levd r.filename1 r.filename2
          ∧ ¬(90 ≤ tsr r.filename1 r.filename2
              ∧ q85 ≤ normalizedLev levd r.filename1 r.filename2)))) := by
  have hpipe : fuzzyKeptRows tsr levd records
      = (find_duplicates records).filterMap (fun pr =>
        if (80 : ℚ) ≤ tsr pr.filename1 pr.filename2
            ∧ q70 ≤ normalizedLev levd pr.filename1 pr.filename2 then
          some ⟨pr.top_level_folder, pr.filename1, pr.filename2, pr.file_size_MB,
            confidenceOf (tsr pr.filename1 pr.filename2)
              (normalizedLev levd pr.filename1 pr.filename2)⟩
        else none) := fuzzy_pipeline tsr levd (find_duplicates records)
  refine ⟨?_, hpipe, ?_⟩
  · intro pr hpr
    rw [find_duplicates_eq_map records] at hpr
    rcases List.mem_map.mp hpr with ⟨pq, hpq, hbuild⟩
    rcases mem_sizePairsIdx.mp (by
      rw [show ((pq.1, pq.2) : (ℕ × DRec) × (ℕ × DRec)) = pq from rfl]
      exact hpq) with ⟨hp, hq, hlt, hfold, hsize⟩
    refine ⟨pq.1, pq.2, hp, hq, hlt, ?_, ?_, ?_, ?_, ?_, ?_⟩
    · rw [← hbuild]
    · rw [← hbuild]; exact hfold.symm
    · rw [← hbuild]
    · rw [← hbuild]; exact hsize.symm
    · rw [← hbuild]
    · rw [← hbuild]
  · intro r hr
    rw [hpipe] at hr
    rcases List.mem_filterMap.mp hr with ⟨pr, _, hcase⟩
    split at hcase
    case isTrue hc =>
      have hrv : r = ⟨pr.top_level_folder, pr.filename1, pr.filename2,
          pr.file_size_MB, confidenceOf (tsr pr.filename1 pr.filename2)
            (normalizedLev levd pr.filename1 pr.filename2)⟩ := by
        injection hcase with h
        exact h.symm
      subst hrv
      by_cases hhigh : 90 ≤ tsr pr.filename1 pr.filename2
          ∧ q85 ≤ normalizedLev levd pr.filename1 pr.filename2
      · constructor
        · constructor
          · intro _; exact hhigh
          · intro _
            show confidenceOf _ _ = "high"
            unfold confidenceOf
            rw [if_pos hhigh]
        · constructor
          · intro hposs
            exfalso
            have : confidenceOf (tsr pr.filename1 pr.filename2)
                (normalizedLev levd pr.filename1 pr.filename2) = "high" := by
              unfold confidenceOf
              rw [if_pos hhigh]
            rw [this] at hposs
            simp at hposs
          · rintro ⟨_, _, hnh⟩
            exact absurd hhigh hnh
      · constructor
        · constructor
          · intro hhi
            exfalso
            have : confidenceOf (tsr pr.filename1 pr.filename2)
                (normalizedLev levd pr.filename1 pr.filename2) = "possible" := by
              unfold confidenceOf
              rw [if_neg hhigh, if_pos hc]
            rw [this] at hhi
            simp at hhi
          · intro hhi
            exact absurd hhi hhigh
        · constructor
          · intro _
            exact ⟨hc.1, hc.2, hhigh⟩
          · intro _
            show confidenceOf _ _ = "possible"
            unfold confidenceOf
            rw [if_neg hhigh, if_pos hc]
    case isFalse => simp at hcase

/-- A first fuzzy-candidate record: folder `F1`, size 3, no hash. -/
def recFz1 : DRec := ⟨"F1", "a.pdf", 3, none⟩

/-- A second fuzzy-candidate record with the same folder and size. -/
def recFz2 : DRec := ⟨"F1", "b.pdf", 3, none⟩

/-- Witness for claim C6: two same-folder same-size records scored 85 with
zero edit distance produce one kept row, classified `possible`, and the two
confidence equivalences hold at it. -/
theorem fuzzy_classification_witness :
    (OutRow.confidence ⟨"F1", "a.pdf", "b.pdf", 3, "possible"⟩ = "high"
      ↔ ((90 : ℚ) ≤ tsr85 "a.pdf" "b.pdf"
        ∧ q85 ≤ normalizedLev levdZero "a.pdf" "b.pdf"))
    ∧ (OutRow.confidence ⟨"F1", "a.pdf", "b.pdf", 3, "possible"⟩ = "possible"
      ↔ ((80 : ℚ) ≤ tsr85 "a.pdf" "b.pdf"
        ∧ q70 ≤ normalizedLev levdZero "a.pdf" "b.pdf"
        ∧ ¬((90 : ℚ) ≤ tsr85 "a.pdf" "b.pdf"
            ∧ q85 ≤ normalizedLev levdZero "a.pdf" "b.pdf"))) :=
  (fuzzy_classification tsr85 levdZero [recFz1, recFz2]).2.2
    ⟨"F1", "a.pdf", "b.pdf", 3, "possible"⟩ (by decide)

/-! ## Filesystem insertion lemmas -/

lemma hasFile_nil (t : FSTree) : hasFile [] t = false := rfl

lemma hasFile_single (f : String) (fs : List String) (ds : List (String × FSTree)) :
    hasFile [f] (.node fs ds) = fs.contains f := rfl

lemma hasFile_cons2 (d e : String) (p : List String) (fs : List String)
    (ds : List (String × FSTree)) :
    hasFile (d :: e :: p) (.node fs ds)
      = (match ds.find? (fun x => x.1 == d) with
        | some x => hasFile (e :: p) x.2
        | none => false) := rfl

lemma find?_replaceOrAppend_self (d : String) (newT : FSTree)
    (ds : List (String × FSTree)) :
    (replaceOrAppend d newT ds).find? (fun x => x.1 == d) = some (d, newT) := by
  induction ds with
  | nil => simp [replaceOrAppend]
  | cons e rest ih =>
    rcases e with ⟨n, t⟩
    rw [replaceOrAppend]
    by_cases hn : (n == d) = true
    · rw [if_pos hn]
      have hnd : n = d := by simpa using hn
      subst hnd
      simp [List.find?]
    · rw [if_neg hn]
      rw [List.find?_cons_of_neg _ (by exact hn)]
      exact ih

lemma find?_replaceOrAppend_other {c d : String} (hcd : c ≠ d) (newT : FSTree)
    (ds : List (String × FSTree)) :
    (replaceOrAppend d newT ds).find? (fun x => x.1 == c)
      = ds.find? (fun x => x.1 == c) := by
  induction ds with
  | nil =>
    rw [replaceOrAppend]
    rw [List.find?_cons_of_neg _ (by simpa using Ne.symm hcd)]
  | cons e rest ih =>
    rcases e with ⟨n, t⟩
    rw [replaceOrAppend]
    by_cases hn : (n == d) = true
    · rw [if_pos hn]
      have hnd : n = d := by simpa using hn
      subst hnd
      rw [List.find?_cons_of_neg _ (by simpa using Ne.symm hcd),
        List.find?_cons_of_neg _ (by simpa using Ne.symm hcd)]
    · rw [if_neg hn]
      by_cases hc : (n == c) = true
      · rw [List.find?_cons_of_pos _ (by exact hc), List.find?_cons_of_pos _ (by exact hc)]
      · rw [List.find?_cons_of_neg _ (by exact hc), List.find?_cons_of_neg _ (by exact hc)]
        exact ih

lemma hasFile_empty_node (q : List String) : hasFile q (.node [] []) = false := by
  rcases q with _ | ⟨c, q2⟩
  · rfl
  · rcases q2 with _ | ⟨c2, q3⟩
    · simp [hasFile_single]
    · simp [hasFile_cons2, List.find?]

lemma hasFile_insertFile (p : List String) (hp : p ≠ []) :
    ∀ (t : FSTree) (q : List String),
      hasFile q (insertFile p t) = (hasFile q t || decide (q = p)) := by
  induction p with
  | nil => exact absurd rfl hp
  | cons d p2 ih =>
    intro t q
    rcases t with ⟨fs, ds⟩
    rcases p2 with _ | ⟨e, p3⟩
    · rw [insertFile]
      by_cases hf : fs.contains d = true
      · rw [if_pos hf]
        rcases q with _ | ⟨c, q2⟩
        · simp [hasFile_nil]
        · rcases q2 with _ | ⟨c2, q3⟩
          · by_cases hcd : c = d
            · subst hcd
              have hmem : c ∈ fs := by simpa using hf
              simp [hasFile_single, hmem]
            · simp [hasFile_single, hcd]
          · simp [hasFile_cons2]
      · rw [if_neg hf]
        rcases q with _ | ⟨c, q2⟩
        · simp [hasFile_nil]
        · rcases q2 with _ | ⟨c2, q3⟩
          · by_cases hcd : c = d
            · subst hcd
              simp [hasFile_single]
            · simp [hasFile_single, hcd]
          · simp [hasFile_cons2]
    · rw [insertFile]
      rcases q with _ | ⟨c, q2⟩
      · simp [hasFile_nil]
      · rcases q2 with _ | ⟨c2, q3⟩
        · simp [hasFile_single]
        · rw [hasFile_cons2, hasFile_cons2]
          by_cases hcd : c = d
          · subst hcd
            rw [find?_replaceOrAppend_self]
            unfold dirAt
            rcases hfind : ds.find? (fun x => x.1 == c) with _ | x
            · simp only [hfind]
              rw [ih (by simp) (.node [] []) (c2 :: q3), hasFile_empty_node]
              by_cases hq : c2 :: q3 = e :: p3
              · simp [hq]
              · have hq2 : ¬(c :: c2 :: q3 = c :: e :: p3) := by
                  intro h
                  exact hq (by injection h)
                simp [hq, hq2]
            · simp only [hfind]
              rw [ih (by simp) x.2 (c2 :: q3)]
              by_cases hq : c2 :: q3 = e :: p3
              · simp [hq]
              · have hq2 : ¬(c :: c2 :: q3 = c :: e :: p3) := by
                  intro h
                  exact hq (by injection h)
                simp [hq, hq2]
          · rw [find?_replaceOrAppend_other hcd]
            have hq2 : ¬(c :: c2 :: q3 = d :: e :: p3) := by
              intro h
              exact hcd (by injection h)
            rcases hfind : ds.find? (fun x => x.1 == c) with _ | x
            · simp [hq2]
            · simp [hq2]

/-! ## The per-file record with conversion off -/

/-- With conversion off, the record (if any) the walk loop produces for one
visited file, as a function of the catalog and the filesystem it consults. -/
def recordFor (cfg : ScanCfg) (cl : Collab) (catalog : List Row) (cur : FSTree)
    (wp : List String) (f : String) : Option Row :=
  if EXCLUDED_FILES.contains f then none
  else if !cfg.excluded_files.isEmpty && is_excluded (wp ++ [f]) cfg.excluded_files then none
  else if strLower (get_file_extension f) == "txt"
      && (cfg.rootParts ++ wp).contains cfg.extract_folder then none
  else if strLower (get_file_extension f) == "pdf" then
    if pdfSkipCat cfg catalog cur wp f then
      some ⟨relDir wp, (splitext f).1, get_file_extension f, some true,
        if cfg.tokenize then cl.tok (pdfTxtPath cfg wp f) else none⟩
    else if hasFile (pdfTxtPath cfg wp f) cur then
      some ⟨relDir wp, (splitext f).1, get_file_extension f, none,
        if cfg.tokenize then cl.tok (pdfTxtPath cfg wp f) else none⟩
    else some ⟨relDir wp, (splitext f).1, get_file_extension f, some false, none⟩
  else some ⟨relDir wp, (splitext f).1, get_file_extension f, some false, none⟩

lemma processFile_records_eq (cfg : ScanCfg) (cl : Collab) (cat : List Row)
    (wp : List String) (f : String) (st : ScanSt) (hconv : cfg.convert = false) :
    (processFile cfg cl cat wp f st).records
      = st.records ++ (recordFor cfg cl cat st.cur wp f).toList := by
  unfold processFile recordFor processPdf processMd
  simp only [hconv, Bool.false_eq_true, if_false]
  repeat' split
  all_goals simp

lemma foldl_processFile_records (cfg : ScanCfg) (cl : Collab) (cat : List Row)
    (hconv : cfg.convert = false) :
    ∀ (entries : List (List String × String)) (st : ScanSt),
      (entries.foldl (fun s e => processFile cfg cl cat e.1 e.2 s) st).records
        = st.records ++ entries.filterMap (fun e => recordFor cfg cl cat st.cur e.1 e.2) := by
  intro entries
  induction entries with
  | nil => intro st; simp
  | cons e es ih =>
    intro st
    rw [List.foldl_cons, ih]
    have hcur := (processFile_pure cfg cl cat e.1 e.2 st hconv).1
    rw [hcur, processFile_records_eq cfg cl cat e.1 e.2 st hconv]
    rcases h : recordFor cfg cl cat st.cur e.1 e.2 with _ | r
    · simp [List.filterMap_cons, h]
    · simp [List.filterMap_cons, h]

lemma scanRecords_eq (cfg : ScanCfg) (cl : Collab) (cat : List Row) (tree : FSTree)
    (hconv : cfg.convert = false) :
    (scanFull cfg cl cat tree).records
      = (walkEntries cfg [] tree).filterMap
          (fun e => recordFor cfg cl cat tree e.1 e.2) := by
  unfold scanFull
  rw [foldl_processFile_records cfg cl cat hconv]
  rfl

lemma keepLast_eq_self {l : List Row} (h : (l.map rowKey).Nodup) : keepLast l = l := by
  induction l with
  | nil => rfl
  | cons r rs ih =>
    rw [List.map_cons, List.nodup_cons] at h
    have hany : ¬(rs.any (fun s => rowKey s == rowKey r) = true) := by
      simp only [List.any_eq_true, beq_iff_eq, not_exists]
      intro s
      rintro ⟨hs, hk⟩
      exact h.1 (List.mem_map.mpr ⟨s, hs, hk⟩)
    rw [keepLast, if_neg hany, ih h.2]

lemma catalogLookup_eq_of_mem {l : List Row} (hnod : (l.map rowKey).Nodup)
    {r : Row} (hr : r ∈ l) :
    catalogLookup l r.relative_path r.filename r.extension = some r := by
  unfold catalogLookup
  rcases hfind : l.find? (fun row => row.relative_path == r.relative_path
      && row.filename == r.filename && row.extension == r.extension) with _ | x
  · exfalso
    have h2 := List.find?_eq_none.mp hfind r hr
    simp at h2
  · have hpx := List.find?_some hfind
    have hmx := List.mem_of_find?_eq_some hfind
    simp only [Bool.and_eq_true, beq_iff_eq] at hpx
    have hkey : rowKey x = rowKey r := by
      unfold rowKey
      rcases hpx with ⟨⟨h1, h2⟩, h3⟩
      rw [h1, h2, h3]
    rw [hfind, List.inj_on_of_nodup_map hnod hmx hr hkey]

lemma txt_ne_catalogName (s : String) : s ++ ".txt" ≠ "latest-catalog.csv" := by
  intro h
  have hd : s.data ++ ['.', 't', 'x', 't'] = "latest-catalog.csv".data :=
    congrArg String.data h
  have hlen : s.data.length = 14 := by
    have h2 := congrArg List.length hd
    rw [List.length_append] at h2
    have h3 : "latest-catalog.csv".data.length = 18 := rfl
    have h4 : (['.', 't', 'x', 't'] : List Char).length = 4 := rfl
    rw [h3, h4] at h2
    omega
  have hdrop : ("latest-catalog.csv".data).drop 14 = ['.', 't', 'x', 't'] := by
    rw [← hd, ← hlen, List.drop_left]
  exact absurd hdrop (by decide)

lemma pdfTxtPath_ne_catalogPath (cfg : ScanCfg) (wp : List String) (f catF : String) :
    pdfTxtPath cfg wp f ≠ [catF, "latest-catalog.csv"] := by
  intro h
  have h2 := congrArg List.getLast? h
  rw [pdfTxtPath, List.getLast?_concat] at h2
  have h3 : ([catF, "latest-catalog.csv"] : List String).getLast?
      = some "latest-catalog.csv" := rfl
  rw [h3] at h2
  exact txt_ne_catalogName (splitext f).1 (Option.some.inj h2)

lemma hasFile_saveCatalog (catF : String) (t : FSTree) (q : List String)
    (hq : q ≠ [catF, "latest-catalog.csv"]) :
    hasFile q (insertFile [catF, "latest-catalog.csv"] t) = hasFile q t := by
  rw [hasFile_insertFile [catF, "latest-catalog.csv"] (by simp) t q]
  simp [hq]

/-! ## The splitext extension has a single leading dot -/

lemma mem_of_getLast?_eq {α : Type} {l : List α} {m : α}
    (h : l.getLast? = some m) : m ∈ l := by
  induction l with
  | nil => simp at h
  | cons a l ih =>
    rcases l with _ | ⟨b, l2⟩
    · simp at h
      simp [h]
    · rw [List.getLast?_cons_cons] at h
      exact List.mem_cons_of_mem _ (ih h)

lemma getLast?_max : ∀ (l : List ℕ), l.Pairwise (· < ·) →
    ∀ m, l.getLast? = some m → ∀ x ∈ l, x ≤ m := by
  intro l
  induction l with
  | nil => intro _ m h; simp at h
  | cons a l ih =>
    intro hl m h x hx
    rcases l with _ | ⟨b, l2⟩
    · simp at h hx
      omega
    · rw [List.getLast?_cons_cons] at h
      rw [List.pairwise_cons] at hl
      rcases List.mem_cons.mp hx with hxa | hxtl
      · subst hxa
        have hb : x < b := hl.1 b (List.mem_cons_self _ _)
        have hbm : b ≤ m := ih hl.2 m h b (List.mem_cons_self _ _)
        omega
      · exact ih hl.2 m h x hxtl

lemma splitextPos_spec {cs : List Char} {i : ℕ} (h : splitextPos cs = some i) :
    i < cs.length ∧ cs.getD i ' ' = '.' ∧
      ∀ k, i < k → k < cs.length → cs.getD k ' ' ≠ '.' := by
  unfold splitextPos at h
  have hmem := mem_of_getLast?_eq h
  rw [List.mem_filter] at hmem
  obtain ⟨hrange, hpred⟩ := hmem
  have hlen := List.mem_range.mp hrange
  simp only [Bool.and_eq_true, beq_iff_eq] at hpred
  refine ⟨hlen, hpred.1, ?_⟩
  intro k hik hk hdot
  have hkmem : k ∈ (List.range cs.length).filter (fun i =>
      cs.getD i ' ' == '.' && (List.range i).any (fun j => cs.getD j ' ' != '.')) := by
    rw [List.mem_filter]
    refine ⟨List.mem_range.mpr hk, ?_⟩
    simp only [Bool.and_eq_true, beq_iff_eq]
    refine ⟨hdot, ?_⟩
    have h2 := hpred.2
    rw [List.any_eq_true] at h2 ⊢
    obtain ⟨j, hj, hjd⟩ := h2
    exact ⟨j, List.mem_range.mpr (lt_trans (List.mem_range.mp hj) hik), hjd⟩
  have hle := getLast?_max _ (List.Pairwise.filter _ (List.pairwise_lt_range _)) i h k hkmem
  omega

lemma lstrip_splitext_eq_ext (f : String) :
    lstripDots (splitext f).2 = get_file_extension f := by
  rcases hsp : splitextPos f.data with _ | i
  · have hse : splitext f = (f, "") := by
      unfold splitext
      rw [hsp]
    unfold get_file_extension
    rw [hse]
    rfl
  · obtain ⟨hlen, hdot, hmax⟩ := splitextPos_spec hsp
    have hse : splitext f = (⟨f.data.take i⟩, ⟨f.data.drop i⟩) := by
      unfold splitext
      rw [hsp]
    have hdropi : f.data.drop i = '.' :: f.data.drop (i + 1) := by
      rw [List.drop_eq_getElem_cons hlen]
      congr 1
      rw [← List.getD_eq_getElem f.data ' ' hlen]
      exact hdot
    have hR : get_file_extension f = ⟨f.data.drop (i + 1)⟩ := by
      unfold get_file_extension
      rw [hse]
      show (match f.data.drop i with
        | '.' :: rest => (⟨rest⟩ : String)
        | _ => (⟨f.data.drop i⟩ : String)) = (⟨f.data.drop (i + 1)⟩ : String)
      rw [hdropi]
      rfl
    have hL : lstripDots ⟨f.data.drop i⟩ = (⟨f.data.drop (i + 1)⟩ : String) := by
      unfold lstripDots
      show (⟨List.dropWhile (fun c => c == '.') (f.data.drop i)⟩ : String) = _
      rw [hdropi, List.dropWhile_cons]
      simp only [show (('.' : Char) == '.') = true from rfl, if_true]
      rcases hdd : f.data.drop (i + 1) with _ | ⟨c, r2⟩
      · rfl
      · have hc : c ≠ '.' := by
          have h1 : (f.data.drop (i + 1)).head? = some c := by
            rw [hdd]
            rfl
          rw [List.head?_drop] at h1
          have hi1 : i + 1 < f.data.length := by
            by_contra hcon
            rw [List.getElem?_eq_none (by omega)] at h1
            exact Option.noConfusion h1
          rw [List.getElem?_eq_getElem hi1] at h1
          have hcc := Option.some.inj h1
          have hnd := hmax (i + 1) (by omega) hi1
          rw [← List.getD_eq_getElem f.data ' ' hi1] at hcc
          rw [hcc] at hnd
          exact hnd
        rw [List.dropWhile_cons, if_neg (by simp [hc])]
    rw [hse, hR]
    exact hL

/-! ## Walk order after inserting the catalog file -/

lemma walkEntries_insertFile_one (cfg : ScanCfg) (wp2 : List String) (f : String)
    (sub : FSTree) :
    ∃ l1 l2, walkEntries cfg wp2 sub = l1 ++ l2 ∧
      (walkEntries cfg wp2 (insertFile [f] sub) = l1 ++ l2 ∨
       walkEntries cfg wp2 (insertFile [f] sub) = l1 ++ (wp2, f) :: l2) := by
  rcases sub with ⟨sfs, sds⟩
  have hins0 : insertFile [f] (FSTree.node sfs sds)
      = if sfs.contains f then FSTree.node sfs sds else FSTree.node (sfs ++ [f]) sds := rfl
  by_cases hc : sfs.contains f = true
  · refine ⟨[], walkEntries cfg wp2 (.node sfs sds), rfl, Or.inl ?_⟩
    rw [hins0, if_pos hc]
    rfl
  · have hins : insertFile [f] (FSTree.node sfs sds) = .node (sfs ++ [f]) sds := by
      rw [hins0, if_neg hc]
    rw [hins, walkEntries_node, walkEntries_node]
    by_cases hb : (basenameOf (cfg.rootParts ++ wp2) == cfg.extract_folder) = true
    · rw [if_pos hb, if_pos hb]
      exact ⟨[], walkDirs cfg wp2 false sds, rfl, Or.inl rfl⟩
    · rw [if_neg hb, if_neg hb]
      refine ⟨sfs.map (fun g => (wp2, g)), walkDirs cfg wp2 true sds, rfl, Or.inr ?_⟩
      rw [List.map_append]
      simp

lemma walkDirs_insert (cfg : ScanCfg) (wp : List String) (d f : String) :
    ∀ (ds : List (String × FSTree)) (prune : Bool),
      ∃ l1 l2, walkDirs cfg wp prune ds = l1 ++ l2 ∧
        (walkDirs cfg wp prune (replaceOrAppend d (insertFile [f] (dirAt d ds)) ds)
            = l1 ++ l2 ∨
         walkDirs cfg wp prune (replaceOrAppend d (insertFile [f] (dirAt d ds)) ds)
            = l1 ++ (wp ++ [d], f) :: l2) := by
  intro ds
  induction ds with
  | nil =>
    intro prune
    have h1 : dirAt d ([] : List (String × FSTree)) = .node [] [] := rfl
    have h2 : insertFile [f] (FSTree.node [] []) = .node [f] [] := rfl
    have h3 : replaceOrAppend d (FSTree.node [f] []) [] = [(d, .node [f] [])] := rfl
    rw [h1, h2, h3, walkDirs_nil, walkDirs_cons]
    by_cases hp : (prune && (d == cfg.extract_folder)) = true
    · rw [if_pos hp, walkDirs_nil]
      exact ⟨[], [], rfl, Or.inl rfl⟩
    · rw [if_neg hp, walkDirs_nil, walkEntries_node]
      by_cases hb : (basenameOf (cfg.rootParts ++ (wp ++ [d])) == cfg.extract_folder) = true
      · rw [if_pos hb, walkDirs_nil]
        exact ⟨[], [], rfl, Or.inl (by simp)⟩
      · rw [if_neg hb, walkDirs_nil]
        exact ⟨[], [], rfl, Or.inr (by simp)⟩
  | cons nt rest ih =>
    intro prune
    obtain ⟨n, t⟩ := nt
    have hra0 : ∀ X, replaceOrAppend d X ((n, t) :: rest)
        = if n == d then (n, X) :: rest else (n, t) :: replaceOrAppend d X rest :=
      fun _ => rfl
    by_cases hnd : (n == d) = true
    · have hnd2 : n = d := by simpa using hnd
      subst hnd2
      have hda : dirAt n ((n, t) :: rest) = t := by
        unfold dirAt
        rw [List.find?_cons_of_pos _ (by simp)]
      rw [hda, hra0, if_pos (by simp), walkDirs_cons, walkDirs_cons]
      by_cases hp : (prune && (n == cfg.extract_folder)) = true
      · rw [if_pos hp, if_pos hp]
        exact ⟨[], walkDirs cfg wp false rest, rfl, Or.inl rfl⟩
      · rw [if_neg hp, if_neg hp]
        obtain ⟨l1, l2, he, hor⟩ := walkEntries_insertFile_one cfg (wp ++ [n]) f t
        refine ⟨l1, l2 ++ walkDirs cfg wp prune rest, by rw [he, List.append_assoc], ?_⟩
        rcases hor with hL | hR
        · exact Or.inl (by rw [hL, List.append_assoc])
        · exact Or.inr (by rw [hR]; simp)
    · have hda : dirAt d ((n, t) :: rest) = dirAt d rest := by
        unfold dirAt
        rw [List.find?_cons_of_neg _ (by exact hnd)]
      rw [hda, hra0, if_neg (by simp at hnd ⊢; exact hnd), walkDirs_cons, walkDirs_cons]
      by_cases hp : (prune && (n == cfg.extract_folder)) = true
      · rw [if_pos hp, if_pos hp]
        exact ih false
      · rw [if_neg hp, if_neg hp]
        obtain ⟨l1, l2, he, hor⟩ := ih prune
        refine ⟨walkEntries cfg (wp ++ [n]) t ++ l1, l2,
          by rw [he, List.append_assoc], ?_⟩
        rcases hor with hL | hR
        · exact Or.inl (by rw [hL, List.append_assoc])
        · exact Or.inr (by rw [hR]; simp)

lemma walkEntries_insertFile_two (cfg : ScanCfg) (d f : String) (t : FSTree) :
    ∃ l1 l2, walkEntries cfg [] t = l1 ++ l2 ∧
      (walkEntries cfg [] (insertFile [d, f] t) = l1 ++ l2 ∨
       walkEntries cfg [] (insertFile [d, f] t) = l1 ++ ([d], f) :: l2) := by
  rcases t with ⟨fs, ds⟩
  have hins : insertFile [d, f] (FSTree.node fs ds)
      = .node fs (replaceOrAppend d (insertFile [f] (dirAt d ds)) ds) := rfl
  rw [hins, walkEntries_node, walkEntries_node]
  by_cases hb : (basenameOf (cfg.rootParts ++ ([] : List String)) == cfg.extract_folder) = true
  · rw [if_pos hb, if_pos hb]
    obtain ⟨l1, l2, he, hor⟩ := walkDirs_insert cfg [] d f ds false
    exact ⟨l1, l2, he, hor⟩
  · rw [if_neg hb, if_neg hb]
    obtain ⟨l1, l2, he, hor⟩ := walkDirs_insert cfg [] d f ds true
    refine ⟨fs.map (fun g => (([] : List String), g)) ++ l1, l2,
      by rw [he, List.append_assoc], ?_⟩
    rcases hor with hL | hR
    · exact Or.inl (by rw [hL, List.append_assoc])
    · exact Or.inr (by rw [hR]; simp)

/-! ## Stability of the per-file record across the saved catalog -/

lemma pdfSkipCat_false_of_no_art (cfg : ScanCfg) (cat : List Row) (cur : FSTree)
    (wp : List String) (f : String)
    (h : hasFile (pdfTxtPath cfg wp f) cur = false) :
    pdfSkipCat cfg cat cur wp f = false := by
  unfold pdfSkipCat
  rcases hl : catalogLookup cat (relDir wp) (splitext f).1 (lstripDots (splitext f).2)
      with _ | row
  · simp only [hl]
  · simp only [hl, h, Bool.and_false]

lemma recordFor_catalogEntry_none (cfg : ScanCfg) (cl : Collab) (cat : List Row)
    (cur : FSTree) (catF : String)
    (hexcl : (catF ++ "/") ∈ cfg.excluded_files) :
    recordFor cfg cl cat cur [catF] "latest-catalog.csv" = none := by
  have hne : cfg.excluded_files.isEmpty = false := by
    have h0 := List.ne_nil_of_mem hexcl
    simp [h0]
  have hex : is_excluded ([catF] ++ ["latest-catalog.csv"]) cfg.excluded_files = true := by
    unfold is_excluded
    rw [Bool.or_eq_true]
    right
    rw [List.any_eq_true]
    refine ⟨catF, by simp, ?_⟩
    simpa using hexcl
  unfold recordFor
  rw [if_neg (by decide), if_pos (by rw [hne, hex]; rfl)]

lemma recordFor_stable (cfg : ScanCfg) (cl : Collab) (cat0 : List Row)
    (tree : FSTree) (catF : String) (recs1 : List Row)
    (hrecs : recs1 = (walkEntries cfg [] tree).filterMap
        (fun e => recordFor cfg cl cat0 tree e.1 e.2))
    (hnod : (recs1.map rowKey).Nodup)
    (wp : List String) (f : String)
    (hmem : (wp, f) ∈ walkEntries cfg [] tree) :
    recordFor cfg cl recs1 (insertFile [catF, "latest-catalog.csv"] tree) wp f
      = recordFor cfg cl cat0 tree wp f := by
  have hart : hasFile (pdfTxtPath cfg wp f) (insertFile [catF, "latest-catalog.csv"] tree)
      = hasFile (pdfTxtPath cfg wp f) tree :=
    hasFile_saveCatalog catF tree _ (pdfTxtPath_ne_catalogPath cfg wp f catF)
  unfold recordFor
  by_cases h1 : EXCLUDED_FILES.contains f = true
  · rw [if_pos h1, if_pos h1]
  · rw [if_neg h1, if_neg h1]
    by_cases h2 : (!cfg.excluded_files.isEmpty
        && is_excluded (wp ++ [f]) cfg.excluded_files) = true
    · rw [if_pos h2, if_pos h2]
    · rw [if_neg h2, if_neg h2]
      by_cases h3 : (strLower (get_file_extension f) == "txt"
          && (cfg.rootParts ++ wp).contains cfg.extract_folder) = true
      · rw [if_pos h3, if_pos h3]
      · rw [if_neg h3, if_neg h3]
        by_cases h4 : (strLower (get_file_extension f) == "pdf") = true
        · rw [if_pos h4, if_pos h4]
          by_cases hf : hasFile (pdfTxtPath cfg wp f) tree = true
          · by_cases hskip : pdfSkipCat cfg cat0 tree wp f = true
            · have hg1 : recordFor cfg cl cat0 tree wp f
                  = some ⟨relDir wp, (splitext f).1, get_file_extension f, some true,
                      if cfg.tokenize then cl.tok (pdfTxtPath cfg wp f) else none⟩ := by
                unfold recordFor
                rw [if_neg h1, if_neg h2, if_neg h3, if_pos h4, if_pos hskip]
              have hmem1 : (⟨relDir wp, (splitext f).1, get_file_extension f, some true,
                  if cfg.tokenize then cl.tok (pdfTxtPath cfg wp f) else none⟩ : Row)
                    ∈ recs1 := by
                rw [hrecs]
                exact List.mem_filterMap.mpr ⟨(wp, f), hmem, hg1⟩
              have hlook : catalogLookup recs1 (relDir wp) (splitext f).1
                  (lstripDots (splitext f).2)
                    = some ⟨relDir wp, (splitext f).1, get_file_extension f, some true,
                        if cfg.tokenize then cl.tok (pdfTxtPath cfg wp f) else none⟩ := by
                rw [lstrip_splitext_eq_ext]
                exact catalogLookup_eq_of_mem hnod hmem1
              have hskip2 : pdfSkipCat cfg recs1
                  (insertFile [catF, "latest-catalog.csv"] tree) wp f = true := by
                unfold pdfSkipCat
                simp only [hlook]
                rw [hart]
                simp [hf]
              rw [if_pos hskip2, if_pos hskip]
            · have hg1 : recordFor cfg cl cat0 tree wp f
                  = some ⟨relDir wp, (splitext f).1, get_file_extension f, none,
                      if cfg.tokenize then cl.tok (pdfTxtPath cfg wp f) else none⟩ := by
                unfold recordFor
                rw [if_neg h1, if_neg h2, if_neg h3, if_pos h4, if_neg hskip, if_pos hf]
              have hmem1 : (⟨relDir wp, (splitext f).1, get_file_extension f, none,
                  if cfg.tokenize then cl.tok (pdfTxtPath cfg wp f) else none⟩ : Row)
                    ∈ recs1 := by
                rw [hrecs]
                exact List.mem_filterMap.mpr ⟨(wp, f), hmem, hg1⟩
              have hlook : catalogLookup recs1 (relDir wp) (splitext f).1
                  (lstripDots (splitext f).2)
                    = some ⟨relDir wp, (splitext f).1, get_file_extension f, none,
                        if cfg.tokenize then cl.tok (pdfTxtPath cfg wp f) else none⟩ := by
                rw [lstrip_splitext_eq_ext]
                exact catalogLookup_eq_of_mem hnod hmem1
              have hskip2 : ¬(pdfSkipCat cfg recs1
                  (insertFile [catF, "latest-catalog.csv"] tree) wp f = true) := by
                unfold pdfSkipCat
                simp only [hlook]
                simp
              rw [if_neg hskip2, if_neg hskip, hart, if_pos hf]
          · have hf0 : hasFile (pdfTxtPath cfg wp f) tree = false := by
              simpa using hf
            have hs1 : ¬(pdfSkipCat cfg cat0 tree wp f = true) := by
              rw [pdfSkipCat_false_of_no_art cfg cat0 tree wp f hf0]
              simp
            have hs2 : ¬(pdfSkipCat cfg recs1
                (insertFile [catF, "latest-catalog.csv"] tree) wp f = true) := by
              rw [pdfSkipCat_false_of_no_art cfg recs1 _ wp f (by rw [hart]; exact hf0)]
              simp
            rw [if_neg hs2, if_neg hs1, hart, if_neg hf]
        · rw [if_neg h4, if_neg h4]

/-! ## Idempotence of reconciliation (claim C2) -/

/-- A scan configuration which excludes the catalog folder, as the
repository default exclusion list does. -/
def cfgCatExcl : ScanCfg := ⟨["lib"], "textracted", ["_catalog/"], false, false⟩

/-- Claim C2, failing part: with no exclusions configured, the catalog file
written by the first run is itself scanned and cataloged by the second run,
so the persisted bytes differ — the claimed idempotence for every exclusion
set is false. -/
theorem idempotence_counterexample :
    serializeCatalog
        (runReconcileAndSave cfgLib collabNone "_catalog"
          (runReconcileAndSave cfgLib collabNone "_catalog" [] (.node ["a.txt"] [])).1
          (runReconcileAndSave cfgLib collabNone "_catalog" [] (.node ["a.txt"] [])).2).1
      ≠ serializeCatalog
          (runReconcileAndSave cfgLib collabNone "_catalog" [] (.node ["a.txt"] [])).1 := by
  decide

/-- Claim C2 (amended): with conversion off, the catalog folder excluded
(listed with a trailing separator as the repository default exclusion list
does), and the first scan producing key-distinct records, running the
reconciliation (`scan_and_update_catalog` followed by `save_catalog`) a
second time with no filesystem changes in between persists a byte-identical
catalog. -/
theorem idempotent_reconciliation (cfg : ScanCfg) (cl : Collab) (catF : String)
    (cat0 : List Row) (tree : FSTree)
    (hconv : cfg.convert = false)
    (hexcl : (catF ++ "/") ∈ cfg.excluded_files)
    (hnod : (((scanFull cfg cl cat0 tree).records).map rowKey).Nodup) :
    serializeCatalog
        (runReconcileAndSave cfg cl catF
          (runReconcileAndSave cfg cl catF cat0 tree).1
          (runReconcileAndSave cfg cl catF cat0 tree).2).1
      = serializeCatalog (runReconcileAndSave cfg cl catF cat0 tree).1 := by
  have hrecs1 : (scanFull cfg cl cat0 tree).records
      = (walkEntries cfg [] tree).filterMap
          (fun e => recordFor cfg cl cat0 tree e.1 e.2) :=
    scanRecords_eq cfg cl cat0 tree hconv
  have hcur1 : (scanFull cfg cl cat0 tree).cur = tree :=
    (foldl_processFile_pure cfg cl cat0 (walkEntries cfg [] tree) ⟨[], tree, []⟩ hconv).1
  have hout1 : (runReconcileAndSave cfg cl catF cat0 tree).1
      = (scanFull cfg cl cat0 tree).records := by
    show reconcile cat0 (scanFull cfg cl cat0 tree).records = _
    rw [reconcile_eq_keepLast, keepLast_eq_self hnod]
  have htree1 : (runReconcileAndSave cfg cl catF cat0 tree).2
      = insertFile [catF, "latest-catalog.csv"] tree := by
    show saveCatalogTree catF (scanFull cfg cl cat0 tree).cur = _
    rw [hcur1]
    rfl
  set recs1 := (scanFull cfg cl cat0 tree).records with hdef
  have hrecs2 : (scanFull cfg cl recs1
      (insertFile [catF, "latest-catalog.csv"] tree)).records = recs1 := by
    rw [scanRecords_eq cfg cl recs1 _ hconv]
    obtain ⟨l1, l2, he, hor⟩ := walkEntries_insertFile_two cfg catF "latest-catalog.csv" tree
    have hcong : ∀ e ∈ walkEntries cfg [] tree,
        recordFor cfg cl recs1 (insertFile [catF, "latest-catalog.csv"] tree) e.1 e.2
          = recordFor cfg cl cat0 tree e.1 e.2 := by
      intro e hmeme
      rcases e with ⟨wp, f⟩
      exact recordFor_stable cfg cl cat0 tree catF recs1 hrecs1 hnod wp f hmeme
    rcases hor with hL | hR
    · rw [hL, ← he, List.filterMap_congr hcong, hrecs1]
    · rw [hR, List.filterMap_append]
      have hz : recordFor cfg cl recs1 (insertFile [catF, "latest-catalog.csv"] tree)
          [catF] "latest-catalog.csv" = none :=
        recordFor_catalogEntry_none cfg cl recs1 _ catF hexcl
      simp only [List.filterMap_cons, hz]
      rw [← List.filterMap_append, ← he, List.filterMap_congr hcong, hrecs1]
  have hout2 : (runReconcileAndSave cfg cl catF
      (runReconcileAndSave cfg cl catF cat0 tree).1
      (runReconcileAndSave cfg cl catF cat0 tree).2).1 = recs1 := by
    show reconcile (runReconcileAndSave cfg cl catF cat0 tree).1
        (scanFull cfg cl (runReconcileAndSave cfg cl catF cat0 tree).1
          (runReconcileAndSave cfg cl catF cat0 tree).2).records = _
    rw [reconcile_eq_keepLast]
    rw [hout1, htree1, hrecs2, keepLast_eq_self hnod]
  rw [hout2, hout1]

/-- Witness for the amended claim C2: a concrete configuration excluding the
catalog folder, on which the second run persists the same bytes. -/
theorem idempotent_reconciliation_witness :
    cfgCatExcl.convert = false ∧ ("_catalog" ++ "/") ∈ cfgCatExcl.excluded_files ∧
      (((scanFull cfgCatExcl collabNone [] (.node ["a.txt"] [])).records).map rowKey).Nodup ∧
      serializeCatalog
          (runReconcileAndSave cfgCatExcl collabNone "_catalog"
            (runReconcileAndSave cfgCatExcl collabNone "_catalog" [] (.node ["a.txt"] [])).1
            (runReconcileAndSave cfgCatExcl collabNone "_catalog" [] (.node ["a.txt"] [])).2).1
        = serializeCatalog
            (runReconcileAndSave cfgCatExcl collabNone "_catalog" [] (.node ["a.txt"] [])).1 :=
  ⟨rfl, by decide, by decide,
    idempotent_reconciliation cfgCatExcl collabNone "_catalog" [] (.node ["a.txt"] [])
      rfl (by decide) (by decide)⟩

end LibMan
